import Mathlib

/-!
Verification development for the boki FaaS runtime sources.

The definitions below are shallow embeddings of the C++ sources:
machine integers become `Nat` (no arithmetic in the modelled paths can
overflow a `uint32`/`uint64` except where noted), `absl::flat_hash_map`
and `std::map` become association lists (for `std::map`, iteration-order
sensitive code is modelled over key-sorted lists), fatal log-and-abort
paths (`HLOG(FATAL)`) become `Option.none`, and callbacks become values
returned alongside the new state.

Sections:
 * SLog engine core  (src/log/engine_core.cpp)
 * Primary sequencer meta-log pipeline (src/log/log_space.cpp)
 * Log storage shard bookkeeping (src/log/log_space.cpp)
 * Sequencer message handlers (src/log/sequencer.cpp)
 * Engine dispatch payload transport and discards (src/engine/engine.cpp)
 * Function worker nested calls (src/worker/cpp/worker/v1/func_worker.cpp)
-/

namespace Boki

/-! ## Association-list maps

`absl::flat_hash_map` and `std::map` are modelled as association lists.
`alSet` is insert-or-assign (`operator[]` followed by assignment);
`alGetD` is lookup with a default (`operator[]` read after the key is
known to be present, or default-insertion of a zero value). -/

def alContainsKey {β : Type} (m : List (ℕ × β)) (k : ℕ) : Bool :=
  m.any (fun p => p.1 = k)

def alGetD {β : Type} (m : List (ℕ × β)) (k : ℕ) (d : β) : β :=
  match m.find? (fun p => p.1 = k) with
  | some p => p.2
  | none => d

def alSet {β : Type} (m : List (ℕ × β)) (k : ℕ) (v : β) : List (ℕ × β) :=
  if alContainsKey m k then
    m.map (fun p => if p.1 = k then (k, v) else p)
  else
    m ++ [(k, v)]

def alErase {β : Type} (m : List (ℕ × β)) (k : ℕ) : List (ℕ × β) :=
  m.filter (fun p => ¬ p.1 = k)

/-! ## Local id layout

Modelled from the spec: the helpers `BuildLocalId` / `LocalIdToViewId` /
`LocalIdToNodeId` live in `src/log/common.h`, which is not part of the
excerpt.  The spec fixes the layout: 64-bit
`localid = (view_id:16, node_id:16, counter:32)`. -/

def buildLocalId (viewId nodeId counter : ℕ) : ℕ :=
  viewId * 2 ^ 48 + nodeId * 2 ^ 32 + counter

def localIdToViewId (localid : ℕ) : ℕ := localid / 2 ^ 48

def localIdToNodeId (localid : ℕ) : ℕ := localid / 2 ^ 32 % 2 ^ 16

/-! ## SLog engine core (`EngineCore`, src/log/engine_core.cpp) -/

/-- `log::Fsm::View`: an immutable membership snapshot.  `nodes` backs
`has_node`; `primaryNodesOf n` is the iteration order that
`ForEachPrimaryNode(n, cb)` presents to its callback (the engine nodes
whose backups include `n`). -/
structure FsmView where
  id : ℕ
  nodes : List ℕ
  primaryNodesOf : ℕ → List ℕ
deriving Inhabited

/-- `EngineCore::LogEntry` (engine_core.h). -/
structure ECLogEntry where
  localid : ℕ
  seqnum : ℕ
  tag : ℕ
  data : List ℕ
deriving DecidableEq, Inhabited

/-- The mutable fields of `log::EngineCore` touched by the claims.
`pending_entries` models `std::map<uint64_t, LogEntry*>`: an association
list kept sorted by key (the `std::map` ordering invariant), since
`OnFsmNewView` iterates it in key order and stops early.  The tag index
is outside the model. -/
structure EngineCore where
  my_node_id : ℕ
  next_localid : ℕ
  pending_entries : List (ℕ × ECLogEntry)
  persisted_entries : List (ℕ × ECLogEntry)
  log_progress : List (ℕ × ℕ)
  log_progress_dirty : Bool
deriving Inhabited

namespace EngineCore

/-- The `std::map` representation invariant for `pending_entries`:
strictly ascending keys. -/
def PendingSorted (s : EngineCore) : Prop :=
  s.pending_entries.Pairwise (fun p q => p.1 < q.1)

/-- The while loop of `EngineCore::AdvanceLogProgress`:
`while (pending_entries_.count(BuildLocalId(view->id(), node_id, counter)) > 0) counter++;`
Each successful step consumes a distinct key present in `pending`, so the
loop runs at most `pending.length` times; fuel `pending.length + 1`
makes the recursion structural without changing the result. -/
def advanceCounterLoop (pending : List (ℕ × ECLogEntry)) (viewId nodeId : ℕ) :
    ℕ → ℕ → ℕ
  | 0, c => c
  | fuel + 1, c =>
    if alContainsKey pending (buildLocalId viewId nodeId c) then
      advanceCounterLoop pending viewId nodeId fuel (c + 1)
    else
      c

/-- `EngineCore::AdvanceLogProgress` (engine_core.cpp:215).  Returns the
state unchanged when this node is not a backup of `nodeId` in the view
(the `HLOG(ERROR)`-and-return path). -/
def advanceLogProgress (s : EngineCore) (view : FsmView) (nodeId : ℕ) : EngineCore :=
  if alContainsKey s.log_progress nodeId = false then s
  else
    let counter := alGetD s.log_progress nodeId 0
    let counter' := advanceCounterLoop s.pending_entries view.id nodeId
        (s.pending_entries.length + 1) counter
    if counter' > counter then
      { s with log_progress := alSet s.log_progress nodeId counter',
               log_progress_dirty := true }
    else s

/-- The loop body of the re-seeding loop in `EngineCore::OnFsmNewView`:
`log_progress_[node_id] = 0; AdvanceLogProgress(view, node_id);`. -/
def seedStep (view : FsmView) (st : EngineCore) (n : ℕ) : EngineCore :=
  advanceLogProgress { st with log_progress := alSet st.log_progress n 0 } view n

/-- `EngineCore::OnFsmNewView` (engine_core.cpp:160).  The record seqnum
only feeds the tag index, which is outside the model.  Returns the new
state and the list of localids passed to `log_discarded_cb_`, in
callback order. -/
def onFsmNewView (s : EngineCore) (view : FsmView) : EngineCore × List ℕ :=
  let discarded := s.pending_entries.takeWhile (fun p => localIdToViewId p.1 < view.id)
  let remaining := s.pending_entries.dropWhile (fun p => localIdToViewId p.1 < view.id)
  let s1 : EngineCore :=
    { s with pending_entries := remaining, next_localid := 0, log_progress := [] }
  let s2 :=
    if s.my_node_id ∈ view.nodes then
      (view.primaryNodesOf s.my_node_id).foldl (seedStep view) s1
    else s1
  (s2, discarded.map Prod.fst)

/-- `LocalCutMsgProto`. -/
structure LocalCutMsg where
  view_id : ℕ
  my_node_id : ℕ
  localid_cuts : List ℕ
deriving DecidableEq, Inhabited

/-- `EngineCore::BuildLocalCutMessage` (engine_core.cpp:50).  Translated
verbatim: after the dirty test succeeds the source executes
`log_progress_dirty_ = true;` (it does not clear the flag). -/
def buildLocalCutMessage (s : EngineCore) (view : FsmView) :
    Option LocalCutMsg × EngineCore :=
  if s.log_progress_dirty = false then (none, s)
  else
    let s' := { s with log_progress_dirty := true }
    (some { view_id := view.id, my_node_id := s.my_node_id,
            localid_cuts := s.next_localid ::
              (view.primaryNodesOf s.my_node_id).map (fun n => alGetD s.log_progress n 0) },
     s')

end EngineCore

/-! ## Concrete engine-core states used to exercise the theorems -/

/-- A two-node view with id 6 where node 0 backs up node 1. -/
def ecView : FsmView :=
  { id := 6, nodes := [0, 1], primaryNodesOf := fun n => if n = 0 then [1] else [] }

def ecEntry (l : ℕ) : ECLogEntry := { localid := l, seqnum := 0, tag := 0, data := [] }

/-- An engine core (node 0) at view 5 with two of its own pending
entries, one backup pending entry already tagged for view 6, and a dirty
local-cut flag. -/
def ecStateDirty : EngineCore :=
  { my_node_id := 0, next_localid := 3,
    pending_entries := [(buildLocalId 5 0 0, ecEntry (buildLocalId 5 0 0)),
                        (buildLocalId 5 0 1, ecEntry (buildLocalId 5 0 1)),
                        (buildLocalId 6 1 0, ecEntry (buildLocalId 6 1 0))],
    persisted_entries := [], log_progress := [(1, 2)], log_progress_dirty := true }

/-! ## Primary sequencer meta-log pipeline
(`MetaLogPrimary`, src/log/log_space.cpp) -/

/-- The view data consulted by `MetaLogPrimary`.  `engineNodes` is
`view_->GetEngineNodes()`, the canonically sorted engine id vector;
`engineStorages e` is `GetEngineNode(e)->GetStorageNodes()`;
`storageSources s` is `GetStorageNode(s)->GetSourceEngineNodes()`;
`replicaSequencers` is `sequencer_node_->GetReplicaSequencerNodes()` for
this primary. -/
structure SeqView where
  id : ℕ
  sequencerId : ℕ
  engineNodes : List ℕ
  engineStorages : ℕ → List ℕ
  storageSources : ℕ → List ℕ
  containsStorage : ℕ → Bool
  replicaSequencers : List ℕ
deriving Inhabited

/-- The mutable state of `log::MetaLogPrimary`.  `shard_progresses`
models `shard_progrsses_` (the cells seeded by the constructor are the
`(engine, storage)` pairs derived from the view; all start at 0, which
the total function represents directly).  `metalog_progresses` models
the per-replica map, whose key set is always `replicaSequencers` (the
constructor seeds it and `UpdateReplicaProgress` rejects non-replica
senders before its `operator[]` touches the map).  `seqnum_position` and
`metalog_position` live in `LogSpaceBase`. -/
structure MetaLogPrimary where
  view : SeqView
  shard_progresses : ℕ × ℕ → ℕ
  last_cut : ℕ → ℕ
  dirty_shards : Finset ℕ
  metalog_position : ℕ
  seqnum_position : ℕ
  metalog_progresses : ℕ → ℕ
  replicated_metalog_position : ℕ

/-- `std::numeric_limits<uint32_t>::max()`. -/
def UINT32_MAX : ℕ := 2 ^ 32 - 1

/-- The `MetaLogPrimary` constructor (log_space.cpp:8): every shard
cell, cut position and replica progress starts at zero. -/
def initMetaLogPrimary (view : SeqView) : MetaLogPrimary :=
  { view := view, shard_progresses := fun _ => 0, last_cut := fun _ => 0,
    dirty_shards := ∅, metalog_position := 0, seqnum_position := 0,
    metalog_progresses := fun _ => 0, replicated_metalog_position := 0 }

namespace MetaLogPrimary

/-- `MetaLogPrimary::GetShardReplicatedPosition` (log_space.cpp:121):
the running minimum over the engine's storage nodes, seeded with
`UINT32_MAX`. -/
def getShardReplicatedPosition (s : MetaLogPrimary) (engineId : ℕ) : ℕ :=
  (s.view.engineStorages engineId).foldl
    (fun m storageId => min m (s.shard_progresses (engineId, storageId))) UINT32_MAX

/-- One iteration of the loop in `MetaLogPrimary::UpdateStorageProgress`
(log_space.cpp:43): advance the `(engine, storage)` cell when the
reported progress is strictly larger, then mark the engine dirty when
its minimum replicated position moved past `last_cut`. -/
def updateStorageCell (storageId : ℕ) (s : MetaLogPrimary) (ep : ℕ × ℕ) : MetaLogPrimary :=
  if ep.2 > s.shard_progresses (ep.1, storageId) then
    if (MetaLogPrimary.getShardReplicatedPosition
          { s with shard_progresses := Function.update s.shard_progresses (ep.1, storageId) ep.2 }
          ep.1)
        > s.last_cut ep.1 then
      { s with shard_progresses := Function.update s.shard_progresses (ep.1, storageId) ep.2,
               dirty_shards := insert ep.1 s.dirty_shards }
    else
      { s with shard_progresses := Function.update s.shard_progresses (ep.1, storageId) ep.2 }
  else s

/-- `MetaLogPrimary::UpdateStorageProgress` (log_space.cpp:31).  The two
`HLOG(FATAL)` guards (unknown storage node, size mismatch) become
`none`. -/
def updateStorageProgress (s : MetaLogPrimary) (storageId : ℕ)
    (progress : List ℕ) : Option MetaLogPrimary :=
  if s.view.containsStorage storageId = false then none
  else if progress.length ≠ (s.view.storageSources storageId).length then none
  else some (((s.view.storageSources storageId).zip progress).foldl
    (updateStorageCell storageId) s)

/-- The ascending sort that `absl::c_sort` performs on the collected
replica progress vector. -/
def sortedAsc (vals : List ℕ) : List ℕ := List.insertionSort (· ≤ ·) vals

/-- The value `progress[progress.size() / 2]` of the sorted progress
vector (log_space.cpp:113). -/
def medianOf (vals : List ℕ) : ℕ := (sortedAsc vals).getD (vals.length / 2) 0

/-- `MetaLogPrimary::UpdateMetaLogReplicatedPosition` (log_space.cpp:101)
with its two early returns. -/
def updateMetaLogReplicatedPosition (s : MetaLogPrimary) : MetaLogPrimary :=
  if s.replicated_metalog_position = s.metalog_position then s
  else if s.view.replicaSequencers = [] then s
  else { s with replicated_metalog_position := (medianOf
      (s.view.replicaSequencers.map s.metalog_progresses)) }

/-- `View::Sequencer::IsReplicaSequencerNode`. -/
def isReplicaSequencer (s : MetaLogPrimary) (seqId : ℕ) : Bool :=
  seqId ∈ s.view.replicaSequencers

/-- `MetaLogPrimary::UpdateReplicaProgress` (log_space.cpp:58).  The two
`HLOG(FATAL)` guards (non-replica sender, future position) become
`none`. -/
def updateReplicaProgress (s : MetaLogPrimary) (seqId pos : ℕ) : Option MetaLogPrimary :=
  if s.isReplicaSequencer seqId = false then none
  else if pos > s.metalog_position then none
  else if pos > s.metalog_progresses seqId then
    some (updateMetaLogReplicatedPosition
      { s with metalog_progresses := Function.update s.metalog_progresses seqId pos })
  else some s

end MetaLogPrimary

/-- `MetaLogProto` restricted to the NEW_LOGS shape that
`MarkNextCut` emits. -/
structure MetaLogProto where
  logspace_id : ℕ
  metalog_seqnum : ℕ
  start_seqnum : ℕ
  shard_starts : List ℕ
  shard_deltas : List ℕ
deriving DecidableEq, Inhabited

namespace MetaLogPrimary

/-- Modelled from the spec: `LogSpaceBase::ProvideMetaLog` and
`identifier()` are not in the source excerpt.  Per the spec (§4.3) the
cut "advances `metalog_position`", and a NEW_LOGS record commits the
per-shard deltas, moving the logspace seqnum position forward by their
sum. -/
def provideMetaLog (s : MetaLogPrimary) (proto : MetaLogProto) : MetaLogPrimary :=
  { s with metalog_position := s.metalog_position + 1,
           seqnum_position := s.seqnum_position + proto.shard_deltas.sum }

/-- One iteration of the engine loop in `MetaLogPrimary::MarkNextCut`
(log_space.cpp:84): append the engine's `shard_start`, and for dirty
engines append the delta and move `last_cut` to the current replicated
position; clean engines contribute delta 0. -/
def cutStep (acc : MetaLogProto × MetaLogPrimary) (engineId : ℕ) :
    MetaLogProto × MetaLogPrimary :=
  if engineId ∈ acc.2.dirty_shards then
    ({ acc.1 with
        shard_starts := acc.1.shard_starts ++ [acc.2.last_cut engineId],
        shard_deltas := (acc.1.shard_deltas
          ++ [acc.2.getShardReplicatedPosition engineId - acc.2.last_cut engineId]) },
     { acc.2 with last_cut := (Function.update acc.2.last_cut engineId
          (acc.2.getShardReplicatedPosition engineId)) })
  else
    ({ acc.1 with
        shard_starts := acc.1.shard_starts ++ [acc.2.last_cut engineId],
        shard_deltas := acc.1.shard_deltas ++ [0] },
     acc.2)

/-- The header of the record that `MarkNextCut` fills in before the
engine loop (log_space.cpp:78): logspace id, the next metalog seqnum and
the current seqnum position.  The logspace identifier layout
`(view_id:16, sequencer_id:16)` is modelled from the spec
(`identifier()` lives in `LogSpaceBase`). -/
def cutInitProto (s : MetaLogPrimary) : MetaLogProto :=
  { logspace_id := s.view.id * 2 ^ 16 + s.view.sequencerId,
    metalog_seqnum := s.metalog_position, start_seqnum := s.seqnum_position,
    shard_starts := [], shard_deltas := [] }

/-- `MetaLogPrimary::MarkNextCut` (log_space.cpp:74).  Translated
verbatim: the source never clears `dirty_shards_`.  The final
`ProvideMetaLog` call is modelled from the spec (see
`provideMetaLog`). -/
def markNextCut (s : MetaLogPrimary) : Option (MetaLogProto × MetaLogPrimary) :=
  if s.dirty_shards = ∅ then none
  else
    some ((s.view.engineNodes.foldl cutStep (cutInitProto s, s)).1,
      provideMetaLog (s.view.engineNodes.foldl cutStep (cutInitProto s, s)).2
        (s.view.engineNodes.foldl cutStep (cutInitProto s, s)).1)

/-- The standing replication invariant of a primary logspace: every
replica acknowledgment is bounded by `metalog_position`, and
`replicated_metalog_position` is the median of the acknowledgments
(established by the constructor, preserved by every operation). -/
def ReplInv (s : MetaLogPrimary) : Prop :=
  (∀ r ∈ s.view.replicaSequencers, s.metalog_progresses r ≤ s.metalog_position) ∧
  s.replicated_metalog_position
    = medianOf (s.view.replicaSequencers.map s.metalog_progresses)

/-- The dirty-shard invariant claimed by the spec: every dirty engine's
minimum replicated position is strictly past its last cut. -/
def DirtyInv (s : MetaLogPrimary) : Prop :=
  ∀ e ∈ s.dirty_shards, s.last_cut e < s.getShardReplicatedPosition e

end MetaLogPrimary

/-! ## Concrete sequencer states used to exercise the theorems -/

/-- A one-engine view: engine 1 persisted by storage 2, replica
sequencer 3. -/
def mlpView : SeqView :=
  { id := 7, sequencerId := 0, engineNodes := [1],
    engineStorages := fun _ => [2], storageSources := fun _ => [1],
    containsStorage := fun sid => sid = 2, replicaSequencers := [3] }

def mlpState0 : MetaLogPrimary := initMetaLogPrimary mlpView

/-- The state after storage 2 reports progress 1 for engine 1: the
shard cell advances and engine 1 becomes dirty. -/
def mlpState1 : MetaLogPrimary :=
  (mlpState0.updateStorageProgress 2 [1]).getD mlpState0

/-- The state after `MarkNextCut` on `mlpState1`. -/
def mlpState2 : MetaLogPrimary :=
  match mlpState1.markNextCut with
  | some r => r.2
  | none => mlpState1

/-! ## Log storage shard bookkeeping (`LogStorage`, src/log/log_space.cpp)

`bits::HighHalf64` / `bits::JoinTwo32` (src/utils/bits.h, not in the
excerpt) are modelled from the spec's 64-bit localid layout: the high
32-bit half carries the engine identification, the low half the
counter. -/

def highHalf64 (x : ℕ) : ℕ := x / 2 ^ 32

def joinTwo32 (hi lo : ℕ) : ℕ := hi * 2 ^ 32 + lo

/-- `gsl::narrow_cast<uint16_t>` as used on the high half in
`LogStorage::Store`. -/
def narrowU16 (x : ℕ) : ℕ := x % 2 ^ 16

/-- A stored log entry (`LogEntry` in log/common.h): the metadata fields
the storage code touches plus the payload. -/
structure StorageLogEntry where
  localid : ℕ
  seqnum : ℕ
  data : List ℕ
deriving DecidableEq, Inhabited

/-- The part of `protocol::SharedLogMessage` that `ReadAt` consults. -/
structure ReadRequest where
  seqnum : ℕ
deriving DecidableEq, Inhabited

inductive ReadStatus where
  | kOK
  | kLookupDB
  | kFailed
deriving DecidableEq, Inhabited

structure ReadResult where
  status : ReadStatus
  log_entry : Option StorageLogEntry
  original_request : ReadRequest
deriving DecidableEq, Inhabited

def alFind? {β : Type} (m : List (ℕ × β)) (k : ℕ) : Option β :=
  match m.find? (fun p => p.1 = k) with
  | some p => some p.2
  | none => none

/-- The mutable state of `log::LogStorage`.  `pending_read_requests`
models the `std::multimap` keyed by seqnum as a seqnum-sorted list (the
key always equals the request's seqnum, inserted by `ReadAt`);
`live_log_entries` models the hash map as an association list;
`seqnum_position` lives in `LogSpaceBase` (modelled from the spec: the
seqnum frontier the applied metalogs have reached);
`maxLiveEntries` is `FLAGS_slog_storage_max_live_entries`. -/
structure LogStorage where
  sourceEngines : List ℕ
  maxLiveEntries : ℕ
  seqnum_position : ℕ
  pending_log_entries : List (ℕ × StorageLogEntry)
  pending_read_requests : List ReadRequest
  pending_read_results : List ReadResult
  live_seqnums : List ℕ
  live_log_entries : List (ℕ × StorageLogEntry)
  shard_progresses : ℕ → ℕ
  shard_progress_dirty : Bool
  persisted_seqnum_position : ℕ

namespace LogStorage

/-- The while loop of `LogStorage::AdvanceShardProgress`
(log_space.cpp:297), with the same fuel bound as
`EngineCore.advanceCounterLoop`: every successful test consumes a
distinct pending key, so `pending.length + 1` steps suffice. -/
def storageCounterLoop (pending : List (ℕ × StorageLogEntry)) (engineId : ℕ) :
    ℕ → ℕ → ℕ
  | 0, c => c
  | fuel + 1, c =>
    if alContainsKey pending (joinTwo32 engineId c) then
      storageCounterLoop pending engineId fuel (c + 1)
    else
      c

/-- `LogStorage::AdvanceShardProgress` (log_space.cpp:297). -/
def advanceShardProgress (s : LogStorage) (engineId : ℕ) : LogStorage :=
  if storageCounterLoop s.pending_log_entries engineId (s.pending_log_entries.length + 1)
      (s.shard_progresses engineId) > s.shard_progresses engineId then
    { s with shard_progress_dirty := true,
             shard_progresses := (Function.update s.shard_progresses engineId
               (storageCounterLoop s.pending_log_entries engineId
                 (s.pending_log_entries.length + 1) (s.shard_progresses engineId))) }
  else s

/-- `LogStorage::Store` (log_space.cpp:165): reject entries whose engine
is not a source of this storage node (returning `false` without
mutation), otherwise overwrite the pending slot and advance the shard
progress. -/
def store (s : LogStorage) (localid seqnum : ℕ) (data : List ℕ) : Bool × LogStorage :=
  if narrowU16 (highHalf64 localid) ∈ s.sourceEngines then
    (true, advanceShardProgress
      { s with pending_log_entries := (alSet s.pending_log_entries localid
          { localid := localid, seqnum := seqnum, data := data }) }
      (narrowU16 (highHalf64 localid)))
  else
    (false, s)

/-- The `std::multimap` insert of `ReadAt`: keep the list sorted by
seqnum, placing new requests after existing equal keys. -/
def insertReadRequest : List ReadRequest → ReadRequest → List ReadRequest
  | [], r => [r]
  | q :: t, r => if r.seqnum < q.seqnum then r :: q :: t else q :: insertReadRequest t r

/-- `LogStorage::ReadAt` (log_space.cpp:182). -/
def readAt (s : LogStorage) (request : ReadRequest) : LogStorage :=
  if request.seqnum ≥ s.seqnum_position then
    { s with pending_read_requests := insertReadRequest s.pending_read_requests request }
  else if alContainsKey s.live_log_entries request.seqnum then
    { s with pending_read_results := s.pending_read_results ++
        [{ status := ReadStatus.kOK,
           log_entry := alFind? s.live_log_entries request.seqnum,
           original_request := request }] }
  else if request.seqnum < s.persisted_seqnum_position then
    { s with pending_read_results := s.pending_read_results ++
        [{ status := ReadStatus.kLookupDB, log_entry := none,
           original_request := request }] }
  else
    { s with pending_read_results := s.pending_read_results ++
        [{ status := ReadStatus.kFailed, log_entry := none,
           original_request := request }] }

/-- The while loop of `LogStorage::ShrinkLiveEntriesIfNeeded`
(log_space.cpp:308): pop live entries from the front while the live set
exceeds `max_size` and the front is below the persisted position. -/
def shrinkLoop (maxSize persisted : ℕ) :
    List ℕ → List (ℕ × StorageLogEntry) → List ℕ × List (ℕ × StorageLogEntry)
  | [], m => ([], m)
  | q :: t, m =>
    if t.length + 1 > maxSize ∧ q < persisted then
      shrinkLoop maxSize persisted t (alErase m q)
    else
      (q :: t, m)

def shrinkLiveEntriesIfNeeded (s : LogStorage) : LogStorage :=
  { s with
    live_seqnums := (shrinkLoop s.maxLiveEntries s.persisted_seqnum_position
      s.live_seqnums s.live_log_entries).1,
    live_log_entries := (shrinkLoop s.maxLiveEntries s.persisted_seqnum_position
      s.live_seqnums s.live_log_entries).2 }

/-- `LogStorage::LogEntriesPersisted` (log_space.cpp:222). -/
def logEntriesPersisted (s : LogStorage) (newPosition : ℕ) : LogStorage :=
  shrinkLiveEntriesIfNeeded { s with persisted_seqnum_position := newPosition }

/-- The read-request check at the end of each `OnNewLogs` iteration
(log_space.cpp:278): the multimap iterator sits at the head of the
remaining request queue, and a request waiting exactly on this seqnum is
answered `kOK` and removed. -/
def serveHeadRequest (s : LogStorage) (seqnum : ℕ) (entry : StorageLogEntry) :
    LogStorage :=
  match s.pending_read_requests with
  | [] => s
  | req :: t =>
    if req.seqnum = seqnum then
      { s with pending_read_requests := t,
               pending_read_results := s.pending_read_results ++
                 [{ status := ReadStatus.kOK, log_entry := some entry,
                    original_request := req }] }
    else s

/-- The per-index body of the delta loop in `LogStorage::OnNewLogs`
(log_space.cpp:259): move the pending entry to the live set with its
assigned seqnum (fatal — `none` — when it is missing), shrink, then
serve a pending read request waiting exactly on this seqnum. -/
def onNewLogsLoop : ℕ → ℕ → ℕ → LogStorage → Option LogStorage
  | 0, _, _, s => some s
  | d + 1, seqnum, localid, s =>
    match alFind? s.pending_log_entries localid with
    | none => none
    | some entry =>
      onNewLogsLoop d (seqnum + 1) (localid + 1)
        (serveHeadRequest
          (shrinkLiveEntriesIfNeeded
            { s with
              pending_log_entries := alErase s.pending_log_entries localid,
              live_seqnums := s.live_seqnums ++ [seqnum],
              live_log_entries := alSet s.live_log_entries seqnum
                { entry with seqnum := seqnum } })
          seqnum { entry with seqnum := seqnum })

/-- `LogStorage::OnNewLogs` (log_space.cpp:244): fail the pending read
requests below `start_seqnum` (the loop walks the sorted multimap from
the front and stops at the first request at or past `start_seqnum`),
then run the delta loop. -/
def onNewLogs (s : LogStorage) (startSeqnum startLocalid delta : ℕ) :
    Option LogStorage :=
  onNewLogsLoop delta startSeqnum startLocalid
    { s with
      pending_read_requests :=
        s.pending_read_requests.dropWhile (fun r => r.seqnum < startSeqnum),
      pending_read_results := s.pending_read_results ++
        (s.pending_read_requests.takeWhile (fun r => r.seqnum < startSeqnum)).map
          (fun r => { status := ReadStatus.kFailed, log_entry := none,
                      original_request := r }) }

/-- The invariant of claim C10: `live_seqnums` is strictly increasing
and holds exactly the seqnums of `live_log_entries`. -/
def StorageInv (s : LogStorage) : Prop :=
  s.live_seqnums.Pairwise (· < ·) ∧
  (∀ q ∈ s.live_seqnums, q ∈ s.live_log_entries.map Prod.fst) ∧
  (∀ q ∈ s.live_log_entries.map Prod.fst, q ∈ s.live_seqnums)

/-- One step of the storage logspace: the four operations of claim C10.
The `onNewLogs` constructor carries the `DCHECK(live_seqnums_.empty()
|| seqnum > live_seqnums_.back())` precondition (log_space.cpp:272) in
the form every caller establishes: new seqnums start past every live
one. -/
inductive Step : LogStorage → LogStorage → Prop
  | store (s : LogStorage) (localid seqnum : ℕ) (data : List ℕ) :
      Step s (LogStorage.store s localid seqnum data).2
  | readAt (s : LogStorage) (req : ReadRequest) : Step s (readAt s req)
  | logEntriesPersisted (s : LogStorage) (pos : ℕ) :
      Step s (logEntriesPersisted s pos)
  | onNewLogs (s s' : LogStorage) (startSeqnum startLocalid delta : ℕ)
      (hfresh : ∀ q ∈ s.live_seqnums, q < startSeqnum)
      (h : onNewLogs s startSeqnum startLocalid delta = some s') :
      Step s s'

end LogStorage

/-! ## Sequencer message handlers (`Sequencer`, src/log/sequencer.cpp) -/

/-- The fields of `protocol::SharedLogMessage` the sequencer handlers
read. -/
structure SharedLogMessage where
  view_id : ℕ
  origin_node_id : ℕ
  logspace_id : ℕ
  metalog_position : ℕ
  sequencer_id : ℕ
deriving DecidableEq, Inhabited

/-- `SharedLogRequest`: a message plus its payload, as held by
`FutureRequests::OnHoldRequest`. -/
structure SharedLogRequest where
  message : SharedLogMessage
  payload : List ℕ
deriving DecidableEq, Inhabited

/-- The sequencer state the three message handlers touch: the installed
view (none before the first `OnViewCreated`), the held future requests
in arrival order, the primary logspace the message addresses, and the
backup logspace (its metalog position and applied records).  The
`LockablePtr` collections are collapsed to the single logspace the
message's `logspace_id` selects. -/
structure SequencerState where
  currentView : Option ℕ
  futureRequests : List SharedLogRequest
  primary : MetaLogPrimary
  primaryFrozen : Bool
  backupMetalogPosition : ℕ
  backupMetalogs : List MetaLogProto
  backupFrozen : Bool

namespace SequencerState

/-- `Sequencer::OnRecvMetaLogProgress` (sequencer.cpp:131).  The guard
is `PANIC_IF_FROM_FUTURE_VIEW` (sequencer.cpp:96): a message from a
future view — or one arriving before any view — is fatal (`none`), not
held.  Past-view messages are dropped with a warning, frozen logspaces
are left untouched, and otherwise `UpdateReplicaProgress` runs (whose
own fatal guards surface as `none`).  The propagation of newly
replicated metalogs reads the logspace without mutating it and is
outside the model. -/
def onRecvMetaLogProgress (s : SequencerState) (msg : SharedLogMessage) :
    Option SequencerState :=
  match s.currentView with
  | none => none
  | some v =>
    if msg.view_id > v then none
    else if msg.view_id < v then some s
    else if s.primaryFrozen then some s
    else
      match s.primary.updateReplicaProgress msg.origin_node_id msg.metalog_position with
      | none => none
      | some p => some { s with primary := p }

/-- `Sequencer::OnRecvShardProgress` (sequencer.cpp:163).  The guard is
`ONHOLD_IF_FROM_FUTURE_VIEW` (sequencer.cpp:85): future-view messages
(and messages before any view) are appended to `future_requests_` and
the handler returns with every logspace untouched.  The payload is the
`uint32_t` progress vector the source memcpy-decodes. -/
def onRecvShardProgress (s : SequencerState) (msg : SharedLogMessage)
    (payload : List ℕ) : Option SequencerState :=
  match s.currentView with
  | none => some { s with futureRequests := s.futureRequests ++ [⟨msg, payload⟩] }
  | some v =>
    if msg.view_id > v then
      some { s with futureRequests := s.futureRequests ++ [⟨msg, payload⟩] }
    else if msg.view_id < v then some s
    else if s.primaryFrozen then some s
    else
      match s.primary.updateStorageProgress msg.origin_node_id payload with
      | none => none
      | some p => some { s with primary := p }

/-- Modelled from the spec: `MetaLogBackup`'s `ProvideMetaLog`
(`LogSpaceBase`) is not in the excerpt.  Per §5, backups apply metalog
records strictly in sequence and reject gaps: a record is applied iff
its seqnum equals the current position. -/
def backupProvide (pos : ℕ) (applied : List MetaLogProto) (proto : MetaLogProto) :
    ℕ × List MetaLogProto :=
  if proto.metalog_seqnum = pos then (pos + 1, applied ++ [proto]) else (pos, applied)

/-- `Sequencer::OnRecvNewMetaLogs` (sequencer.cpp:182), with the same
`ONHOLD_IF_FROM_FUTURE_VIEW` guard; on the accepting path the records
are applied to the backup logspace in order and, when the position
advanced, a META_PROG response with the new position is sent (returned
here as the second component). -/
def onRecvNewMetaLogs (s : SequencerState) (msg : SharedLogMessage)
    (payload : List ℕ) (metalogs : List MetaLogProto) :
    Option (SequencerState × Option ℕ) :=
  match s.currentView with
  | none => some ({ s with futureRequests := s.futureRequests ++ [⟨msg, payload⟩] }, none)
  | some v =>
    if msg.view_id > v then
      some ({ s with futureRequests := s.futureRequests ++ [⟨msg, payload⟩] }, none)
    else if msg.view_id < v then some (s, none)
    else if s.backupFrozen then some (s, none)
    else
      some ({ s with
              backupMetalogPosition := (metalogs.foldl
                (fun acc proto => backupProvide acc.1 acc.2 proto)
                (s.backupMetalogPosition, s.backupMetalogs)).1,
              backupMetalogs := (metalogs.foldl
                (fun acc proto => backupProvide acc.1 acc.2 proto)
                (s.backupMetalogPosition, s.backupMetalogs)).2 },
            if (metalogs.foldl (fun acc proto => backupProvide acc.1 acc.2 proto)
                (s.backupMetalogPosition, s.backupMetalogs)).1
                > s.backupMetalogPosition
            then some ((metalogs.foldl (fun acc proto => backupProvide acc.1 acc.2 proto)
                (s.backupMetalogPosition, s.backupMetalogs)).1)
            else none)

end SequencerState

/-- A sequencer at view 6 with an empty primary logspace. -/
def seqStateAtView6 : SequencerState :=
  { currentView := some 6, futureRequests := [],
    primary := initMetaLogPrimary mlpView, primaryFrozen := false,
    backupMetalogPosition := 0, backupMetalogs := [], backupFrozen := false }

/-- A META_PROG message from view 7 (a future view for
`seqStateAtView6`). -/
def futureViewMsg : SharedLogMessage :=
  { view_id := 7, origin_node_id := 3, logspace_id := 7 * 2 ^ 16,
    metalog_position := 0, sequencer_id := 0 }

/-! ## Engine dispatch payload transport (`Engine`, src/engine/engine.cpp)

Shared-memory regions are named values (§6: `funccall-input-<id>` /
`funccall-output-<id>`); a store is an association list from names to
contents. -/

inductive ShmName where
  | input (fullCallId : ℕ)
  | output (fullCallId : ℕ)
deriving DecidableEq, Inhabited

def shmOpen (store : List (ShmName × List ℕ)) (name : ShmName) : Option (List ℕ) :=
  match store.find? (fun p => p.1 = name) with
  | some p => some p.2
  | none => none

/-- The wire fields relevant to payload transport: `payload_size : i32`
(negative means the payload travels in shm) and the inline bytes. -/
structure WireMessage where
  payload_size : Int
  inline_data : List ℕ
deriving DecidableEq, Inhabited

/-- `GetInlineDataFromMessage` (protocol.h, modelled from the spec §6:
only the first `|payload_size|` inline bytes are valid). -/
def getInlineData (m : WireMessage) : List ℕ :=
  m.inline_data.take m.payload_size.toNat

/-- `protocol::FuncCall`: client_id 0 marks an external caller. -/
structure FuncCall where
  func_id : ℕ
  client_id : ℕ
  call_id : ℕ
deriving DecidableEq, Inhabited

/-- The 64-bit full call id (modelled from the spec §3 layout
`(func_id:16, client_id:16, call_id:32)`). -/
def FuncCall.full_call_id (f : FuncCall) : ℕ :=
  f.func_id + f.client_id * 2 ^ 16 + f.call_id * 2 ^ 32

/-- The shm-input decision of `Engine::OnExternalFuncCall`
(engine.cpp:248): a named input region keyed by the full call id is
created, filled with the input, exactly when the input exceeds the
inline capacity (`MESSAGE_INLINE_DATA_SIZE`, the spec's `INLINE_MAX`).
Allocation failure (which fails the call) is abstracted away. -/
def externalCallInputRegion (inlineMax : ℕ) (f : FuncCall) (input : List ℕ) :
    Option (ShmName × List ℕ) :=
  if input.length > inlineMax then some (ShmName.input f.full_call_id, input) else none

/-- Modelled from the spec: the producer side of the wire encoding
(`worker_lib::PrepareNewFuncCall` and the dispatcher message builders
are not in the excerpt).  §4.1: when the payload exceeds `INLINE_MAX`, a
region named by the full call id carries it and `payload_size` is the
**negated** size; otherwise the payload is inline and `payload_size` is
its size.  Returns the message and the regions created. -/
def encodePayload (inlineMax : ℕ) (name : ShmName) (p : List ℕ) :
    WireMessage × List (ShmName × List ℕ) :=
  if p.length > inlineMax then
    ({ payload_size := -(p.length : Int), inline_data := [] }, [(name, p)])
  else
    ({ payload_size := (p.length : Int), inline_data := p }, [])

inductive InputSource where
  | shm (size : ℕ)
  | inlineBytes (bytes : List ℕ)
deriving DecidableEq, Inhabited

/-- The input decoding of the InvokeFunc branch of
`Engine::OnRecvMessage` (engine.cpp:168-179): a negative payload size
means an shm input of size `-payload_size`; otherwise the first
`payload_size` inline bytes. -/
def engineDecodeInput (m : WireMessage) : InputSource :=
  if m.payload_size < 0 then InputSource.shm m.payload_size.natAbs
  else InputSource.inlineBytes (getInlineData m)

/-- The output decoding of the FuncCallComplete branch of
`Engine::OnRecvMessage` for external calls (engine.cpp:211-228): open
the named output region when `payload_size` is negative (failure to
open fails the call), else take the inline bytes. -/
def engineDecodeOutput (store : List (ShmName × List ℕ)) (fullCallId : ℕ)
    (m : WireMessage) : Option (List ℕ) :=
  if m.payload_size < 0 then shmOpen store (ShmName.output fullCallId)
  else some (getInlineData m)

/-- The output decoding of `FuncWorker::WaitInvokeFunc`
(func_worker.cpp:257-286): open the region and check its size against
`-payload_size` when negative, else read the inline bytes. -/
def workerDecodeOutput (store : List (ShmName × List ℕ)) (fullCallId : ℕ)
    (m : WireMessage) : Option (List ℕ) :=
  if m.payload_size < 0 then
    match shmOpen store (ShmName.output fullCallId) with
    | none => none
    | some content =>
      if content.length = m.payload_size.natAbs then some content else none
  else some (getInlineData m)

/-! ## Engine discarded-call processing (src/engine/engine.cpp) -/

/-- The engine fields the discard path touches:
`external_func_call_shm_inputs_` keyed by full call id, and the pending
`discarded_func_calls_` vector. -/
structure EngineState where
  external_func_call_shm_inputs : List (ℕ × List ℕ)
  discarded_func_calls : List FuncCall
deriving DecidableEq, Inhabited

/-- `Engine::DiscardFuncCall` (engine.cpp:341): push into the pending
vector (no deduplication). -/
def discardFuncCall (s : EngineState) (f : FuncCall) : EngineState :=
  { s with discarded_func_calls := s.discarded_func_calls ++ [f] }

/-- `Engine::GrabExternalFuncCallShmInput` (engine.cpp:332). -/
def grabShmInput (s : EngineState) (f : FuncCall) : Option (List ℕ) × EngineState :=
  match alFind? s.external_func_call_shm_inputs f.full_call_id with
  | some region =>
    (some region,
     { s with external_func_call_shm_inputs :=
        alErase s.external_func_call_shm_inputs f.full_call_id })
  | none => (none, s)

/-- An `ExternalFuncCallFinished` invocation. -/
structure FinishedEvent where
  func_call : FuncCall
  success : Bool
  discarded : Bool
deriving DecidableEq, Inhabited

/-- The loop of `Engine::ProcessDiscardedFuncCallIfNecessary`
(engine.cpp:353): external calls (client_id 0) have their shm input
grabbed and are collected for `ExternalFuncCallFinished`; internal calls
are collected for the wire failure message.  Returns (state, reclaimed
regions, external calls, internal calls), each in processing order. -/
def processLoop :
    List FuncCall → EngineState →
      EngineState × List (List ℕ) × List FuncCall × List FuncCall
  | [], s => (s, [], [], [])
  | f :: rest, s =>
    if f.client_id = 0 then
      match alFind? s.external_func_call_shm_inputs f.full_call_id with
      | some region =>
        ((processLoop rest
            { s with external_func_call_shm_inputs :=
                alErase s.external_func_call_shm_inputs f.full_call_id }).1,
         region :: (processLoop rest
            { s with external_func_call_shm_inputs :=
                alErase s.external_func_call_shm_inputs f.full_call_id }).2.1,
         f :: (processLoop rest
            { s with external_func_call_shm_inputs :=
                alErase s.external_func_call_shm_inputs f.full_call_id }).2.2.1,
         (processLoop rest
            { s with external_func_call_shm_inputs :=
                alErase s.external_func_call_shm_inputs f.full_call_id }).2.2.2)
      | none =>
        ((processLoop rest s).1,
         (processLoop rest s).2.1,
         f :: (processLoop rest s).2.2.1,
         (processLoop rest s).2.2.2)
    else
      ((processLoop rest s).1,
       (processLoop rest s).2.1,
       (processLoop rest s).2.2.1,
       f :: (processLoop rest s).2.2.2)

/-- `Engine::ProcessDiscardedFuncCallIfNecessary` (engine.cpp:347):
drain the pending vector, then fire
`ExternalFuncCallFinished(success=false, discarded=true)` for each
collected external call (one per vector slot).  Returns the new state,
the finished events, the reclaimed shm regions and the internal calls
sent failure messages. -/
def processDiscardedFuncCallIfNecessary (s : EngineState) :
    EngineState × List FinishedEvent × List (List ℕ) × List FuncCall :=
  (({ (processLoop s.discarded_func_calls s).1 with discarded_func_calls := [] }),
   (processLoop s.discarded_func_calls s).2.2.1.map
     (fun f => { func_call := f, success := false, discarded := true }),
   (processLoop s.discarded_func_calls s).2.1,
   (processLoop s.discarded_func_calls s).2.2.2)

/-- `n` successive `DiscardFuncCall(f)` calls. -/
def discardN (s : EngineState) (f : FuncCall) : ℕ → EngineState
  | 0 => s
  | n + 1 => discardFuncCall (discardN s f n) f

/-- A concrete external call with a registered shm input. -/
def extCall : FuncCall := { func_id := 1, client_id := 0, call_id := 5 }

def engineStateWithInput : EngineState :=
  { external_func_call_shm_inputs := [(extCall.full_call_id, [9, 9, 9])],
    discarded_func_calls := [] }

/-! ## Function worker nested calls (src/worker/cpp/worker/v1/func_worker.cpp) -/

inductive MsgType where
  | funcCallComplete
  | funcCallFailed
  | other
deriving DecidableEq, Inhabited

structure WorkerMessage where
  msgType : MsgType
  wire : WireMessage
deriving DecidableEq, Inhabited

inductive NestedCallResult where
  | fatal
  | failure
  | success (output : List ℕ)
deriving DecidableEq, Inhabited

/-- `FuncWorker::WaitInvokeFunc` (func_worker.cpp:228) as a function of
the `ongoing_invoke_func_` flag, the result message eventually received,
and the shm store.  The naive path terminates the process
(`LOG(FATAL)`, func_worker.cpp:236) when a nested invocation is already
outstanding, before sending anything; an unknown result message type is
also fatal; a failed decode returns failure. -/
def waitInvokeFunc (ongoing : Bool) (result : WorkerMessage)
    (store : List (ShmName × List ℕ)) (fullCallId : ℕ) : NestedCallResult :=
  if ongoing then NestedCallResult.fatal
  else
    match result.msgType with
    | MsgType.funcCallFailed => NestedCallResult.failure
    | MsgType.other => NestedCallResult.fatal
    | MsgType.funcCallComplete =>
      match workerDecodeOutput store fullCallId result.wire with
      | none => NestedCallResult.failure
      | some out => NestedCallResult.success out

/-- `FuncWorker::FifoWaitInvokeFunc` (func_worker.cpp:290).  The FIFO
mechanics (`FifoCreate`, `FifoOpenForReadWrite`, the
`func_call_timeout_ms_` poll, and `worker_lib::FifoGetFuncCallOutput`)
are environment effects passed as oracle parameters; the function never
consults `ongoing_invoke_func_`. -/
def fifoWaitInvokeFunc (_ongoing : Bool) (fifoCreateOk fifoOpenOk pollOk : Bool)
    (output : Option (Bool × List ℕ)) : NestedCallResult :=
  if fifoCreateOk = false then NestedCallResult.failure
  else if fifoOpenOk = false then NestedCallResult.failure
  else if pollOk = false then NestedCallResult.failure
  else
    match output with
    | none => NestedCallResult.failure
    | some r => if r.1 then NestedCallResult.success r.2 else NestedCallResult.failure

/-- A three-replica view used for the replica-progress witness. -/
def quorumView : SeqView :=
  { id := 3, sequencerId := 0, engineNodes := [1],
    engineStorages := fun _ => [2], storageSources := fun _ => [1],
    containsStorage := fun sid => sid = 2, replicaSequencers := [4, 5, 6] }

/-- A reachable primary state at metalog position 2 whose replica
acknowledgments are 0, 1, 0 (median 0). -/
def quorumState : MetaLogPrimary :=
  { view := quorumView, shard_progresses := fun _ => 0, last_cut := fun _ => 0,
    dirty_shards := ∅, metalog_position := 2, seqnum_position := 2,
    metalog_progresses := fun r => if r = 5 then 1 else 0,
    replicated_metalog_position := 0 }

/-! # Theorems -/

namespace EngineCore

theorem localIdToViewId_mono {k k' : ℕ} (h : k ≤ k') :
    localIdToViewId k ≤ localIdToViewId k' :=
  Nat.div_le_div_right h

theorem pending_dropWhile_view_ge (vid : ℕ) :
    ∀ l : List (ℕ × ECLogEntry), l.Pairwise (fun p q => p.1 < q.1) →
      ∀ p ∈ l.dropWhile (fun q => decide (localIdToViewId q.1 < vid)),
        vid ≤ localIdToViewId p.1 := by
  intro l
  induction l with
  | nil => intro _ p hp; simp at hp
  | cons a t ih =>
    intro hpw p hp
    rw [List.pairwise_cons] at hpw
    rw [List.dropWhile_cons] at hp
    by_cases ha : localIdToViewId a.1 < vid
    · rw [if_pos (by simpa using ha)] at hp
      exact ih hpw.2 p hp
    · rw [if_neg (by simpa using ha)] at hp
      rcases List.mem_cons.mp hp with h | h
      · subst h; omega
      · have hlt : a.1 < p.1 := hpw.1 p h
        have := localIdToViewId_mono (Nat.le_of_lt hlt)
        omega

theorem pending_takeWhile_eq_filter (vid : ℕ) :
    ∀ l : List (ℕ × ECLogEntry), l.Pairwise (fun p q => p.1 < q.1) →
      l.takeWhile (fun q => decide (localIdToViewId q.1 < vid))
        = l.filter (fun q => decide (localIdToViewId q.1 < vid)) := by
  intro l
  induction l with
  | nil => intro _; rfl
  | cons a t ih =>
    intro hpw
    rw [List.pairwise_cons] at hpw
    rw [List.takeWhile_cons, List.filter_cons]
    by_cases ha : localIdToViewId a.1 < vid
    · rw [if_pos (by simpa using ha), if_pos (by simpa using ha), ih hpw.2]
    · have hnil : t.filter (fun q => decide (localIdToViewId q.1 < vid)) = [] := by
        rw [List.filter_eq_nil_iff]
        intro p hp
        have hlt : a.1 < p.1 := hpw.1 p hp
        have := localIdToViewId_mono (Nat.le_of_lt hlt)
        simp only [decide_eq_true_eq]
        omega
      rw [if_neg (by simpa using ha), if_neg (by simpa using ha), hnil]

theorem alSet_of_contains {β : Type} (m : List (ℕ × β)) (k : ℕ) (v : β)
    (h : alContainsKey m k = true) :
    alSet m k v = m.map (fun p => if p.1 = k then (k, v) else p) := by
  rw [alSet, if_pos h]

theorem alSet_of_not_contains {β : Type} (m : List (ℕ × β)) (k : ℕ) (v : β)
    (h : alContainsKey m k = false) :
    alSet m k v = m ++ [(k, v)] := by
  rw [alSet, if_neg (by simp [h])]

theorem alContainsKey_alSet_self {β : Type} (m : List (ℕ × β)) (k : ℕ) (v : β) :
    alContainsKey (alSet m k v) k = true := by
  cases hc : alContainsKey m k with
  | true =>
    rw [alSet_of_contains m k v hc]
    unfold alContainsKey at hc ⊢
    rw [List.any_eq_true] at hc ⊢
    obtain ⟨p, hp, hfst⟩ := hc
    simp only [decide_eq_true_eq] at hfst
    exact ⟨(k, v), List.mem_map.mpr ⟨p, hp, by simp [hfst]⟩, by simp⟩
  | false =>
    rw [alSet_of_not_contains m k v hc]
    unfold alContainsKey
    rw [List.any_eq_true]
    exact ⟨(k, v), by simp, by simp⟩

theorem alContainsKey_alSet_other {β : Type} (m : List (ℕ × β)) (k k' : ℕ) (v : β)
    (h : k' ≠ k) : alContainsKey (alSet m k v) k' = alContainsKey m k' := by
  cases hc : alContainsKey m k with
  | true =>
    rw [alSet_of_contains m k v hc]
    unfold alContainsKey
    rw [List.any_map]
    congr 1
    funext p
    by_cases hp : p.1 = k
    · have h1 : ¬ (k = k') := fun hkk => h hkk.symm
      simp [Function.comp, hp, h1]
    · simp [Function.comp, hp]
  | false =>
    rw [alSet_of_not_contains m k v hc]
    unfold alContainsKey
    rw [List.any_append]
    simp [h, Ne.symm h]

theorem advanceLogProgress_frame (s : EngineCore) (view : FsmView) (n : ℕ) :
    (s.advanceLogProgress view n).pending_entries = s.pending_entries ∧
    (s.advanceLogProgress view n).next_localid = s.next_localid ∧
    (s.advanceLogProgress view n).my_node_id = s.my_node_id := by
  rw [advanceLogProgress]
  by_cases h : alContainsKey s.log_progress n = false
  · rw [if_pos h]; exact ⟨rfl, rfl, rfl⟩
  · rw [if_neg h]
    by_cases h2 : advanceCounterLoop s.pending_entries view.id n
        (s.pending_entries.length + 1) (alGetD s.log_progress n 0) > alGetD s.log_progress n 0
    · rw [if_pos h2]; exact ⟨rfl, rfl, rfl⟩
    · rw [if_neg h2]; exact ⟨rfl, rfl, rfl⟩

theorem advanceLogProgress_keys (s : EngineCore) (view : FsmView) (n k : ℕ) :
    alContainsKey (s.advanceLogProgress view n).log_progress k
      = alContainsKey s.log_progress k := by
  rw [advanceLogProgress]
  by_cases h : alContainsKey s.log_progress n = false
  · rw [if_pos h]
  · rw [if_neg h]
    by_cases h2 : advanceCounterLoop s.pending_entries view.id n
        (s.pending_entries.length + 1) (alGetD s.log_progress n 0) > alGetD s.log_progress n 0
    · rw [if_pos h2]
      show alContainsKey (alSet s.log_progress n _) k = alContainsKey s.log_progress k
      by_cases hk : k = n
      · subst hk
        rw [alContainsKey_alSet_self]
        rw [Bool.not_eq_false] at h
        rw [h]
      · exact alContainsKey_alSet_other _ _ _ _ hk
    · rw [if_neg h2]

theorem seedStep_frame (view : FsmView) (st : EngineCore) (n : ℕ) :
    (seedStep view st n).pending_entries = st.pending_entries ∧
    (seedStep view st n).next_localid = st.next_localid ∧
    (seedStep view st n).my_node_id = st.my_node_id := by
  unfold seedStep
  have h := advanceLogProgress_frame
    { st with log_progress := alSet st.log_progress n 0 } view n
  simpa using h

theorem seedStep_keys (view : FsmView) (st : EngineCore) (n k : ℕ) :
    alContainsKey (seedStep view st n).log_progress k
      = (alContainsKey st.log_progress k || decide (k = n)) := by
  unfold seedStep
  rw [advanceLogProgress_keys]
  by_cases hk : k = n
  · subst hk; simp [alContainsKey_alSet_self]
  · rw [alContainsKey_alSet_other _ _ _ _ hk]
    simp [hk]

theorem foldl_seedStep_frame (view : FsmView) :
    ∀ (ns : List ℕ) (st : EngineCore),
      (ns.foldl (seedStep view) st).pending_entries = st.pending_entries ∧
      (ns.foldl (seedStep view) st).next_localid = st.next_localid := by
  intro ns
  induction ns with
  | nil => intro st; exact ⟨rfl, rfl⟩
  | cons n t ih =>
    intro st
    have h1 := ih (seedStep view st n)
    have h2 := seedStep_frame view st n
    simp only [List.foldl_cons]
    exact ⟨h1.1.trans h2.1, h1.2.trans h2.2.1⟩

theorem foldl_seedStep_keys (view : FsmView) :
    ∀ (ns : List ℕ) (st : EngineCore) (k : ℕ),
      alContainsKey (ns.foldl (seedStep view) st).log_progress k
        = (alContainsKey st.log_progress k || decide (k ∈ ns)) := by
  intro ns
  induction ns with
  | nil => intro st k; simp
  | cons n t ih =>
    intro st k
    simp only [List.foldl_cons]
    rw [ih, seedStep_keys]
    by_cases h1 : k = n
    · subst h1; simp
    · by_cases h2 : k ∈ t <;> simp [h1, h2]

/-- C5: after `EngineCore::OnFsmNewView(record_seqnum, v)` on a state
whose pending map is key-sorted (the `std::map` invariant),
(i) no pending entry has localid view component below `v.id`,
(ii) the discard callback fires exactly once for each removed entry,
with its localid (the fired list is exactly the pending localids of
older views, without duplicates), (iii) `next_localid` resets to 0, and
(iv) `log_progress` is cleared and re-seeded with one entry per node of
`ForEachPrimaryNode(self)` when the view contains this node, and left
empty otherwise. -/
theorem onFsmNewView_spec (s : EngineCore) (view : FsmView)
    (hsorted : s.PendingSorted) :
    (∀ p ∈ (s.onFsmNewView view).1.pending_entries,
        view.id ≤ localIdToViewId p.1) ∧
    (s.onFsmNewView view).2
      = (s.pending_entries.map Prod.fst).filter
          (fun l => decide (localIdToViewId l < view.id)) ∧
    (s.onFsmNewView view).2.Nodup ∧
    (s.onFsmNewView view).1.next_localid = 0 ∧
    (s.my_node_id ∈ view.nodes →
      ∀ n, alContainsKey (s.onFsmNewView view).1.log_progress n = true
             ↔ n ∈ view.primaryNodesOf s.my_node_id) ∧
    (s.my_node_id ∉ view.nodes → (s.onFsmNewView view).1.log_progress = []) := by
  unfold PendingSorted at hsorted
  simp only [onFsmNewView]
  refine ⟨?_, ?_, ?_, ?_, ?_, ?_⟩
  · intro p hp
    by_cases hm : s.my_node_id ∈ view.nodes
    · rw [if_pos hm, (foldl_seedStep_frame view _ _).1] at hp
      exact pending_dropWhile_view_ge view.id s.pending_entries hsorted p hp
    · rw [if_neg hm] at hp
      exact pending_dropWhile_view_ge view.id s.pending_entries hsorted p hp
  · rw [pending_takeWhile_eq_filter view.id s.pending_entries hsorted]
    rw [List.filter_map]
    rfl
  · have hsub : (s.pending_entries.takeWhile
        (fun q => decide (localIdToViewId q.1 < view.id))).Sublist s.pending_entries :=
      List.takeWhile_sublist _
    have hpw : (s.pending_entries.takeWhile
        (fun q => decide (localIdToViewId q.1 < view.id))).Pairwise
          (fun p q => p.1 < q.1) := hsorted.sublist hsub
    have hlt : ((s.pending_entries.takeWhile
        (fun q => decide (localIdToViewId q.1 < view.id))).map Prod.fst).Pairwise (· < ·) := by
      rw [List.pairwise_map]
      exact hpw
    exact hlt.imp Nat.ne_of_lt
  · by_cases hm : s.my_node_id ∈ view.nodes
    · rw [if_pos hm, (foldl_seedStep_frame view _ _).2]
    · rw [if_neg hm]
  · intro hm n
    rw [if_pos hm, foldl_seedStep_keys]
    simp [alContainsKey]
  · intro hm
    rw [if_neg hm]

end EngineCore

/-- C4 (code bug), evaluated at a concrete dirty state: the first
`BuildLocalCutMessage` call emits `[view_id, my_node_id, next_localid,
log_progress per primary node]`, but engine_core.cpp:54 executes
`log_progress_dirty_ = true;` instead of clearing the flag, so a second
call with no intervening state change emits the same message again
rather than returning none. -/
theorem buildLocalCutMessage_dirty_not_cleared :
    (ecStateDirty.buildLocalCutMessage ecView).1
        = some { view_id := 6, my_node_id := 0, localid_cuts := [3, 2] } ∧
    (ecStateDirty.buildLocalCutMessage ecView).2.log_progress_dirty = true ∧
    ((ecStateDirty.buildLocalCutMessage ecView).2.buildLocalCutMessage ecView).1
        = some { view_id := 6, my_node_id := 0, localid_cuts := [3, 2] } := by
  refine ⟨rfl, rfl, rfl⟩

/-- Witness for C5 at the concrete state `ecStateDirty` and view
`ecView`: the sortedness hypothesis holds and the conclusions follow by
applying the theorem. -/
theorem onFsmNewView_spec_witness :
    EngineCore.PendingSorted ecStateDirty ∧
    ((∀ p ∈ (ecStateDirty.onFsmNewView ecView).1.pending_entries,
        ecView.id ≤ localIdToViewId p.1) ∧
    (ecStateDirty.onFsmNewView ecView).2
      = (ecStateDirty.pending_entries.map Prod.fst).filter
          (fun l => decide (localIdToViewId l < ecView.id)) ∧
    (ecStateDirty.onFsmNewView ecView).2.Nodup ∧
    (ecStateDirty.onFsmNewView ecView).1.next_localid = 0 ∧
    (ecStateDirty.my_node_id ∈ ecView.nodes →
      ∀ n, alContainsKey (ecStateDirty.onFsmNewView ecView).1.log_progress n = true
             ↔ n ∈ ecView.primaryNodesOf ecStateDirty.my_node_id) ∧
    (ecStateDirty.my_node_id ∉ ecView.nodes →
      (ecStateDirty.onFsmNewView ecView).1.log_progress = [])) :=
  ⟨by unfold EngineCore.PendingSorted; decide,
   EngineCore.onFsmNewView_spec ecStateDirty ecView
     (by unfold EngineCore.PendingSorted; decide)⟩

namespace MetaLogPrimary

/-! ### Order statistics of the sorted replica progress vector -/

theorem length_sortedAsc (l : List ℕ) : (sortedAsc l).length = l.length :=
  List.length_insertionSort _ l

theorem sortedAsc_sorted (l : List ℕ) : (sortedAsc l).Sorted (· ≤ ·) :=
  List.sorted_insertionSort _ l

theorem sortedAsc_perm (l : List ℕ) : (sortedAsc l).Perm l :=
  List.perm_insertionSort _ l

/-- In a sorted list, the `k`-th element is at most `v` iff more than `k`
elements are at most `v`. -/
theorem sorted_getD_le_iff :
    ∀ l : List ℕ, l.Sorted (· ≤ ·) → ∀ k : ℕ, k < l.length → ∀ v : ℕ,
      (l.getD k 0 ≤ v ↔ k < l.countP (fun x => decide (x ≤ v))) := by
  intro l
  induction l with
  | nil => intro _ k hk; simp at hk
  | cons a t ih =>
    intro hs k hk v
    rw [List.sorted_cons] at hs
    cases k with
    | zero =>
      rw [List.getD_cons_zero, List.countP_cons]
      by_cases hav : a ≤ v
      · simp [hav]
      · have ht : t.countP (fun x => decide (x ≤ v)) = 0 := by
          rw [List.countP_eq_zero]
          intro x hx
          simp only [decide_eq_true_eq]
          intro hxv
          exact hav (le_trans (hs.1 x hx) hxv)
        simp [hav, ht]
    | succ j =>
      rw [List.getD_cons_succ, List.countP_cons]
      have hj : j < t.length := by simpa using hk
      rw [ih hs.2 j hj v]
      by_cases hav : a ≤ v
      · simp only [hav, decide_eq_true_eq, if_pos]
        omega
      · have ht : t.countP (fun x => decide (x ≤ v)) = 0 := by
          rw [List.countP_eq_zero]
          intro x hx
          simp only [decide_eq_true_eq]
          intro hxv
          exact hav (le_trans (hs.1 x hx) hxv)
        simp [hav, ht]

theorem sorted_getD_mono (l l' : List ℕ) (hs : l.Sorted (· ≤ ·))
    (hs' : l'.Sorted (· ≤ ·)) (hlen : l.length = l'.length) (k : ℕ) (hk : k < l.length)
    (hcount : ∀ v, l'.countP (fun x => decide (x ≤ v)) ≤ l.countP (fun x => decide (x ≤ v))) :
    l.getD k 0 ≤ l'.getD k 0 := by
  have hk' : k < l'.length := hlen ▸ hk
  have h2 := (sorted_getD_le_iff l' hs' k hk' (l'.getD k 0)).mp (le_refl _)
  have h3 : k < l.countP (fun x => decide (x ≤ l'.getD k 0)) :=
    lt_of_lt_of_le h2 (hcount _)
  exact (sorted_getD_le_iff l hs k hk _).mpr h3

/-- The median (or any order statistic) does not decrease when the value
vector increases pointwise over the index list. -/
theorem medianOf_map_mono (R : List ℕ) (f g : ℕ → ℕ) (hfg : ∀ r ∈ R, f r ≤ g r) :
    medianOf (R.map f) ≤ medianOf (R.map g) := by
  by_cases hR : R = []
  · subst hR; simp [medianOf, sortedAsc]
  · have hlenpos : 0 < R.length := List.length_pos.mpr hR
    have hk : R.length / 2 < R.length := Nat.div_lt_self hlenpos one_lt_two
    unfold medianOf
    rw [List.length_map, List.length_map]
    apply sorted_getD_mono _ _ (sortedAsc_sorted _) (sortedAsc_sorted _)
    · rw [length_sortedAsc, length_sortedAsc, List.length_map, List.length_map]
    · rw [length_sortedAsc, List.length_map]
      exact hk
    · intro v
      rw [(sortedAsc_perm (R.map g)).countP_eq, (sortedAsc_perm (R.map f)).countP_eq]
      rw [List.countP_map, List.countP_map]
      apply List.countP_mono_left
      intro r hr
      simp only [Function.comp, decide_eq_true_eq]
      intro hgv
      exact le_trans (hfg r hr) hgv

/-- Every order statistic is bounded by any bound on the values. -/
theorem medianOf_le_bound (vals : List ℕ) (B : ℕ) (hB : ∀ x ∈ vals, x ≤ B)
    (hne : vals ≠ []) : medianOf vals ≤ B := by
  have hlen : 0 < vals.length := List.length_pos.mpr hne
  have hk : vals.length / 2 < (sortedAsc vals).length := by
    rw [length_sortedAsc]
    exact Nat.div_lt_self hlen one_lt_two
  unfold medianOf
  rw [List.getD_eq_getElem _ _ hk]
  exact hB _ ((sortedAsc_perm vals).subset (List.getElem_mem hk))

theorem medianOf_eq_zero_of_all_zero (vals : List ℕ) (h : ∀ x ∈ vals, x = 0) :
    medianOf vals = 0 := by
  unfold medianOf
  by_cases hk : vals.length / 2 < (sortedAsc vals).length
  · rw [List.getD_eq_getElem _ _ hk]
    exact h _ ((sortedAsc_perm vals).subset (List.getElem_mem hk))
  · rw [List.getD_eq_default _ _ (by omega)]

/-! ### The replication invariant -/

/-- The constructor establishes `ReplInv`: all progresses are zero, the
positions are zero, and the median of an all-zero vector is zero. -/
theorem replInv_init (v : SeqView) : ReplInv (initMetaLogPrimary v) := by
  refine ⟨fun r _ => le_refl 0, ?_⟩
  refine (medianOf_eq_zero_of_all_zero _ ?_).symm
  intro x hx
  obtain ⟨r, _, hrx⟩ := List.mem_map.mp hx
  exact hrx.symm

theorem updateMetaLogRepl_frame (s : MetaLogPrimary) :
    (updateMetaLogReplicatedPosition s).view = s.view ∧
    (updateMetaLogReplicatedPosition s).metalog_progresses = s.metalog_progresses ∧
    (updateMetaLogReplicatedPosition s).metalog_position = s.metalog_position ∧
    (updateMetaLogReplicatedPosition s).shard_progresses = s.shard_progresses ∧
    (updateMetaLogReplicatedPosition s).last_cut = s.last_cut ∧
    (updateMetaLogReplicatedPosition s).dirty_shards = s.dirty_shards ∧
    (updateMetaLogReplicatedPosition s).seqnum_position = s.seqnum_position := by
  rw [updateMetaLogReplicatedPosition]
  by_cases h1 : s.replicated_metalog_position = s.metalog_position
  · rw [if_pos h1]
    exact ⟨rfl, rfl, rfl, rfl, rfl, rfl, rfl⟩
  · rw [if_neg h1]
    by_cases h2 : s.view.replicaSequencers = []
    · rw [if_pos h2]
      exact ⟨rfl, rfl, rfl, rfl, rfl, rfl, rfl⟩
    · rw [if_neg h2]
      exact ⟨rfl, rfl, rfl, rfl, rfl, rfl, rfl⟩

theorem updateMetaLogRepl_value (s : MetaLogPrimary)
    (hRne : s.view.replicaSequencers ≠ [])
    (hge : s.replicated_metalog_position
      ≤ medianOf (s.view.replicaSequencers.map s.metalog_progresses))
    (hmb : medianOf (s.view.replicaSequencers.map s.metalog_progresses)
      ≤ s.metalog_position) :
    (updateMetaLogReplicatedPosition s).replicated_metalog_position
      = medianOf (s.view.replicaSequencers.map s.metalog_progresses) := by
  rw [updateMetaLogReplicatedPosition]
  by_cases h1 : s.replicated_metalog_position = s.metalog_position
  · rw [if_pos h1]
    omega
  · rw [if_neg h1, if_neg hRne]

/-- C1: `UpdateReplicaProgress` on a primary satisfying the standing
replication invariant, called with a replica of self and a position not
exceeding `metalog_position` (the non-fatal case), succeeds, preserves
the invariant, and afterwards `replicated_metalog_position` has not
decreased, does not exceed `metalog_position`, and equals the element at
index `|R| / 2` of the sorted vector of `metalog_progresses` values over
the replica set `R`. -/
theorem updateReplicaProgress_quorum (s : MetaLogPrimary) (seqId pos : ℕ)
    (hinv : ReplInv s) (hrep : s.isReplicaSequencer seqId = true)
    (hpos : pos ≤ s.metalog_position) :
    ∃ s', s.updateReplicaProgress seqId pos = some s' ∧ ReplInv s' ∧
      s.replicated_metalog_position ≤ s'.replicated_metalog_position ∧
      s'.replicated_metalog_position ≤ s'.metalog_position ∧
      s'.replicated_metalog_position
        = medianOf (s'.view.replicaSequencers.map s'.metalog_progresses) ∧
      s'.metalog_position = s.metalog_position := by
  have hmem : seqId ∈ s.view.replicaSequencers := by
    unfold isReplicaSequencer at hrep
    simpa using hrep
  have hRne : s.view.replicaSequencers ≠ [] := List.ne_nil_of_mem hmem
  rw [updateReplicaProgress]
  rw [if_neg (by simp [hrep])]
  rw [if_neg (by omega)]
  by_cases hadv : pos > s.metalog_progresses seqId
  · rw [if_pos hadv]
    have hptwise : ∀ r ∈ s.view.replicaSequencers,
        s.metalog_progresses r ≤ Function.update s.metalog_progresses seqId pos r := by
      intro r _
      by_cases hr : r = seqId
      · subst hr
        rw [Function.update_same]
        omega
      · rw [Function.update_noteq hr]
    have hbound' : ∀ r ∈ s.view.replicaSequencers,
        Function.update s.metalog_progresses seqId pos r ≤ s.metalog_position := by
      intro r hr
      by_cases hrs : r = seqId
      · subst hrs
        rw [Function.update_same]
        omega
      · rw [Function.update_noteq hrs]
        exact hinv.1 r hr
    have hbound : ∀ x ∈ s.view.replicaSequencers.map
        (Function.update s.metalog_progresses seqId pos), x ≤ s.metalog_position := by
      intro x hx
      obtain ⟨r, hr, hrx⟩ := List.mem_map.mp hx
      exact hrx ▸ hbound' r hr
    have hmono : medianOf (s.view.replicaSequencers.map s.metalog_progresses)
        ≤ medianOf (s.view.replicaSequencers.map
            (Function.update s.metalog_progresses seqId pos)) :=
      medianOf_map_mono _ _ _ hptwise
    have hmedbound : medianOf (s.view.replicaSequencers.map
        (Function.update s.metalog_progresses seqId pos)) ≤ s.metalog_position :=
      medianOf_le_bound _ _ hbound (by simpa using hRne)
    have hge1 : s.replicated_metalog_position
        ≤ medianOf (s.view.replicaSequencers.map
            (Function.update s.metalog_progresses seqId pos)) := by
      rw [hinv.2]
      exact hmono
    obtain ⟨eview, eprog, epos, -, -, -, -⟩ := updateMetaLogRepl_frame
      { s with metalog_progresses := Function.update s.metalog_progresses seqId pos }
    have hval := updateMetaLogRepl_value
      { s with metalog_progresses := Function.update s.metalog_progresses seqId pos }
      hRne hge1 hmedbound
    refine ⟨_, rfl, ⟨?_, ?_⟩, ?_, ?_, ?_, ?_⟩
    · intro r hr
      rw [eview] at hr
      rw [eprog, epos]
      exact hbound' r hr
    · rw [eview, eprog]
      exact hval
    · rw [hval]
      rw [hinv.2]
      exact hmono
    · rw [hval, epos]
      exact hmedbound
    · rw [eview, eprog]
      exact hval
    · rw [epos]
  · rw [if_neg hadv]
    refine ⟨s, rfl, hinv, le_refl _, ?_, hinv.2, rfl⟩
    rw [hinv.2]
    exact medianOf_le_bound _ _
      (by intro x hx
          obtain ⟨r, hr, hrx⟩ := List.mem_map.mp hx
          exact hrx ▸ hinv.1 r hr)
      (by simpa using hRne)

/-! ### The cut loop of `MarkNextCut` -/

theorem getShard_congr {s s' : MetaLogPrimary} (hv : s'.view = s.view)
    (hsp : s'.shard_progresses = s.shard_progresses) (e : ℕ) :
    s'.getShardReplicatedPosition e = s.getShardReplicatedPosition e := by
  unfold getShardReplicatedPosition
  rw [hv, hsp]

theorem cutStep_parts (acc : MetaLogProto × MetaLogPrimary) (e : ℕ) :
    (cutStep acc e).2.view = acc.2.view ∧
    (cutStep acc e).2.shard_progresses = acc.2.shard_progresses ∧
    (cutStep acc e).2.dirty_shards = acc.2.dirty_shards ∧
    (cutStep acc e).2.metalog_position = acc.2.metalog_position ∧
    (cutStep acc e).2.seqnum_position = acc.2.seqnum_position ∧
    (cutStep acc e).2.metalog_progresses = acc.2.metalog_progresses ∧
    (cutStep acc e).2.replicated_metalog_position = acc.2.replicated_metalog_position ∧
    (cutStep acc e).1.logspace_id = acc.1.logspace_id ∧
    (cutStep acc e).1.metalog_seqnum = acc.1.metalog_seqnum ∧
    (cutStep acc e).1.start_seqnum = acc.1.start_seqnum ∧
    (cutStep acc e).1.shard_starts = acc.1.shard_starts ++ [acc.2.last_cut e] ∧
    (cutStep acc e).1.shard_deltas = acc.1.shard_deltas
      ++ [if e ∈ acc.2.dirty_shards
          then acc.2.getShardReplicatedPosition e - acc.2.last_cut e else 0] ∧
    (cutStep acc e).2.last_cut
      = (if e ∈ acc.2.dirty_shards
         then Function.update acc.2.last_cut e (acc.2.getShardReplicatedPosition e)
         else acc.2.last_cut) := by
  rw [cutStep]
  by_cases h : e ∈ acc.2.dirty_shards
  · rw [if_pos h]
    refine ⟨rfl, rfl, rfl, rfl, rfl, rfl, rfl, rfl, rfl, rfl, rfl, ?_, ?_⟩
    · rw [if_pos h]
    · rw [if_pos h]
  · rw [if_neg h]
    refine ⟨rfl, rfl, rfl, rfl, rfl, rfl, rfl, rfl, rfl, rfl, rfl, ?_, ?_⟩
    · rw [if_neg h]
    · rw [if_neg h]

theorem cutFold_state (ns : List ℕ) :
    ∀ acc : MetaLogProto × MetaLogPrimary,
      (ns.foldl cutStep acc).2.view = acc.2.view ∧
      (ns.foldl cutStep acc).2.shard_progresses = acc.2.shard_progresses ∧
      (ns.foldl cutStep acc).2.dirty_shards = acc.2.dirty_shards ∧
      (ns.foldl cutStep acc).2.metalog_position = acc.2.metalog_position ∧
      (ns.foldl cutStep acc).2.seqnum_position = acc.2.seqnum_position ∧
      (ns.foldl cutStep acc).2.metalog_progresses = acc.2.metalog_progresses ∧
      (ns.foldl cutStep acc).2.replicated_metalog_position
        = acc.2.replicated_metalog_position ∧
      (ns.foldl cutStep acc).1.logspace_id = acc.1.logspace_id ∧
      (ns.foldl cutStep acc).1.metalog_seqnum = acc.1.metalog_seqnum ∧
      (ns.foldl cutStep acc).1.start_seqnum = acc.1.start_seqnum := by
  induction ns with
  | nil =>
    intro acc
    exact ⟨rfl, rfl, rfl, rfl, rfl, rfl, rfl, rfl, rfl, rfl⟩
  | cons e t ih =>
    intro acc
    rw [List.foldl_cons]
    obtain ⟨s1, s2, s3, s4, s5, s6, s7, p1, p2, p3⟩ := ih (cutStep acc e)
    obtain ⟨c1, c2, c3, c4, c5, c6, c7, d1, d2, d3, -, -, -⟩ := cutStep_parts acc e
    exact ⟨s1.trans c1, s2.trans c2, s3.trans c3, s4.trans c4, s5.trans c5,
           s6.trans c6, s7.trans c7, p1.trans d1, p2.trans d2, p3.trans d3⟩

theorem cutFold_last_cut_not_mem (ns : List ℕ) :
    ∀ acc, ∀ x, x ∉ ns → (ns.foldl cutStep acc).2.last_cut x = acc.2.last_cut x := by
  induction ns with
  | nil => intro acc x _; rfl
  | cons e t ih =>
    intro acc x hx
    rw [List.foldl_cons]
    have hxe : x ≠ e := fun h => hx (h ▸ List.mem_cons_self e t)
    have hxt : x ∉ t := fun h => hx (List.mem_cons_of_mem e h)
    rw [ih (cutStep acc e) x hxt]
    obtain ⟨-, -, -, -, -, -, -, -, -, -, -, -, hlc⟩ := cutStep_parts acc e
    rw [hlc]
    by_cases h : e ∈ acc.2.dirty_shards
    · rw [if_pos h, Function.update_noteq hxe]
    · rw [if_neg h]

theorem cutFold_last_cut_mem :
    ∀ ns : List ℕ, ns.Nodup → ∀ acc, ∀ x ∈ ns,
      (ns.foldl cutStep acc).2.last_cut x
        = (if x ∈ acc.2.dirty_shards then acc.2.getShardReplicatedPosition x
           else acc.2.last_cut x) := by
  intro ns
  induction ns with
  | nil => intro _ acc x hx; simp at hx
  | cons e t ih =>
    intro hnd acc x hx
    obtain ⟨he, hndt⟩ := List.nodup_cons.mp hnd
    rw [List.foldl_cons]
    obtain ⟨c1, c2, c3, -, -, -, -, -, -, -, -, -, hlc⟩ := cutStep_parts acc e
    rcases List.mem_cons.mp hx with hxeq | hxt
    · subst hxeq
      rw [cutFold_last_cut_not_mem t (cutStep acc x) x he, hlc]
      by_cases h : x ∈ acc.2.dirty_shards
      · rw [if_pos h, if_pos h, Function.update_same]
      · rw [if_neg h, if_neg h]
    · have hxe : x ≠ e := fun h => he (h ▸ hxt)
      rw [ih hndt (cutStep acc e) x hxt]
      rw [c3, getShard_congr c1 c2 x, hlc]
      by_cases h : e ∈ acc.2.dirty_shards
      · rw [if_pos h, Function.update_noteq hxe]
      · rw [if_neg h]

theorem cutFold_outputs :
    ∀ ns : List ℕ, ns.Nodup → ∀ acc,
      (ns.foldl cutStep acc).1.shard_starts
        = acc.1.shard_starts ++ ns.map acc.2.last_cut ∧
      (ns.foldl cutStep acc).1.shard_deltas
        = acc.1.shard_deltas ++ ns.map (fun e =>
            if e ∈ acc.2.dirty_shards
            then acc.2.getShardReplicatedPosition e - acc.2.last_cut e else 0) := by
  intro ns
  induction ns with
  | nil => intro _ acc; simp
  | cons e t ih =>
    intro hnd acc
    obtain ⟨he, hndt⟩ := List.nodup_cons.mp hnd
    rw [List.foldl_cons]
    obtain ⟨hstarts, hdeltas⟩ := ih hndt (cutStep acc e)
    obtain ⟨c1, c2, c3, -, -, -, -, -, -, -, hst, hdl, hlc⟩ := cutStep_parts acc e
    constructor
    · rw [hstarts, hst]
      have hmapeq : t.map (cutStep acc e).2.last_cut = t.map acc.2.last_cut := by
        apply List.map_congr_left
        intro x hxt
        have hxe : x ≠ e := fun h => he (h ▸ hxt)
        rw [hlc]
        by_cases h : e ∈ acc.2.dirty_shards
        · rw [if_pos h, Function.update_noteq hxe]
        · rw [if_neg h]
      rw [hmapeq, List.map_cons, List.append_assoc, List.singleton_append]
    · rw [hdeltas, hdl]
      have hfeq : t.map (fun x =>
          if x ∈ (cutStep acc e).2.dirty_shards
          then (cutStep acc e).2.getShardReplicatedPosition x
            - (cutStep acc e).2.last_cut x else 0)
          = t.map (fun x => if x ∈ acc.2.dirty_shards
              then acc.2.getShardReplicatedPosition x - acc.2.last_cut x else 0) := by
        apply List.map_congr_left
        intro x hxt
        have hxe : x ≠ e := fun h => he (h ▸ hxt)
        rw [c3, getShard_congr c1 c2 x, hlc]
        by_cases h : e ∈ acc.2.dirty_shards
        · rw [if_pos h, Function.update_noteq hxe]
        · rw [if_neg h]
      rw [hfeq, List.map_cons, List.append_assoc, List.singleton_append]

/-- C2: a `MarkNextCut` call that emits a record, on a state whose
`dirty_shards` all satisfy the dirty-shard invariant, produces, in the
view's canonical engine order, `shard_starts[e] = last_cut[e]` before
the call and `shard_deltas[e] = min_s shard_progress[e,s] -
last_cut_before[e]` for dirty engines and `0` for clean ones; `last_cut`
changes exactly at the dirty engines, and `metalog_position` advances by
one. -/
theorem markNextCut_spec (s : MetaLogPrimary) (hnd : s.view.engineNodes.Nodup)
    (hdirty : s.dirty_shards ≠ ∅) (hinv : DirtyInv s) :
    ∃ proto s', s.markNextCut = some (proto, s') ∧
      proto.shard_starts = s.view.engineNodes.map s.last_cut ∧
      proto.shard_deltas = s.view.engineNodes.map (fun e =>
        if e ∈ s.dirty_shards
        then s.getShardReplicatedPosition e - s.last_cut e else 0) ∧
      proto.metalog_seqnum = s.metalog_position ∧
      (∀ e ∈ s.view.engineNodes, (s'.last_cut e ≠ s.last_cut e ↔ e ∈ s.dirty_shards)) ∧
      s'.metalog_position = s.metalog_position + 1 := by
  rw [markNextCut, if_neg hdirty]
  refine ⟨_, _, rfl, ?_, ?_, ?_, ?_, ?_⟩
  · exact ((cutFold_outputs s.view.engineNodes hnd _).1).trans (List.nil_append _)
  · exact ((cutFold_outputs s.view.engineNodes hnd _).2).trans (List.nil_append _)
  · exact (cutFold_state s.view.engineNodes _).2.2.2.2.2.2.2.2.1
  · intro e he
    show ((s.view.engineNodes.foldl cutStep _).2.last_cut e ≠ s.last_cut e
            ↔ e ∈ s.dirty_shards)
    rw [cutFold_last_cut_mem s.view.engineNodes hnd _ e he]
    constructor
    · intro hne
      by_contra hd
      rw [if_neg hd] at hne
      exact hne rfl
    · intro hd
      rw [if_pos hd]
      exact (hinv e hd).ne'
  · show (s.view.engineNodes.foldl cutStep _).2.metalog_position + 1
        = s.metalog_position + 1
    rw [(cutFold_state s.view.engineNodes _).2.2.2.1]

/-! ### `ReplInv` is preserved by the other primary operations -/

theorem updateStorageCell_metalog (storageId : ℕ) (s : MetaLogPrimary) (ep : ℕ × ℕ) :
    (updateStorageCell storageId s ep).view = s.view ∧
    (updateStorageCell storageId s ep).metalog_position = s.metalog_position ∧
    (updateStorageCell storageId s ep).metalog_progresses = s.metalog_progresses ∧
    (updateStorageCell storageId s ep).replicated_metalog_position
      = s.replicated_metalog_position := by
  rw [updateStorageCell]
  by_cases h1 : ep.2 > s.shard_progresses (ep.1, storageId)
  · rw [if_pos h1]
    by_cases h2 : (MetaLogPrimary.getShardReplicatedPosition
        { s with shard_progresses :=
            Function.update s.shard_progresses (ep.1, storageId) ep.2 } ep.1)
        > s.last_cut ep.1
    · rw [if_pos h2]
      exact ⟨rfl, rfl, rfl, rfl⟩
    · rw [if_neg h2]
      exact ⟨rfl, rfl, rfl, rfl⟩
  · rw [if_neg h1]
    exact ⟨rfl, rfl, rfl, rfl⟩

theorem storageFold_metalog (l : List (ℕ × ℕ)) (storageId : ℕ) :
    ∀ s : MetaLogPrimary,
      (l.foldl (updateStorageCell storageId) s).view = s.view ∧
      (l.foldl (updateStorageCell storageId) s).metalog_position = s.metalog_position ∧
      (l.foldl (updateStorageCell storageId) s).metalog_progresses
        = s.metalog_progresses ∧
      (l.foldl (updateStorageCell storageId) s).replicated_metalog_position
        = s.replicated_metalog_position := by
  induction l with
  | nil =>
    intro s
    exact ⟨rfl, rfl, rfl, rfl⟩
  | cons ep t ih =>
    intro s
    rw [List.foldl_cons]
    obtain ⟨s1, s2, s3, s4⟩ := ih (updateStorageCell storageId s ep)
    obtain ⟨c1, c2, c3, c4⟩ := updateStorageCell_metalog storageId s ep
    exact ⟨s1.trans c1, s2.trans c2, s3.trans c3, s4.trans c4⟩

theorem replInv_updateStorageProgress (s : MetaLogPrimary) (sid : ℕ) (prog : List ℕ)
    (s' : MetaLogPrimary) (h : s.updateStorageProgress sid prog = some s')
    (hinv : ReplInv s) : ReplInv s' := by
  rw [updateStorageProgress] at h
  by_cases h1 : s.view.containsStorage sid = false
  · rw [if_pos h1] at h
    exact absurd h (by simp)
  · rw [if_neg h1] at h
    by_cases h2 : prog.length ≠ (s.view.storageSources sid).length
    · rw [if_pos h2] at h
      exact absurd h (by simp)
    · rw [if_neg h2] at h
      have hs' := Option.some.inj h
      obtain ⟨hv, hm, hp, hr⟩ := storageFold_metalog
        ((s.view.storageSources sid).zip prog) sid s
      constructor
      · intro r hrr
        rw [← hs'] at hrr ⊢
        rw [hv] at hrr
        rw [hp, hm]
        exact hinv.1 r hrr
      · rw [← hs', hr, hv, hp]
        exact hinv.2

theorem replInv_markNextCut (s : MetaLogPrimary) (proto : MetaLogProto)
    (s' : MetaLogPrimary) (h : s.markNextCut = some (proto, s'))
    (hinv : ReplInv s) : ReplInv s' := by
  rw [markNextCut] at h
  by_cases hd : s.dirty_shards = ∅
  · rw [if_pos hd] at h
    exact absurd h (by simp)
  · rw [if_neg hd] at h
    have h2 := Option.some.inj h
    have hs' : s' = provideMetaLog
        (s.view.engineNodes.foldl cutStep (cutInitProto s, s)).2
        (s.view.engineNodes.foldl cutStep (cutInitProto s, s)).1 :=
      (congrArg Prod.snd h2).symm
    obtain ⟨hv, -, -, hm, -, hp, hr, -, -, -⟩ :=
      cutFold_state s.view.engineNodes (cutInitProto s, s)
    constructor
    · intro r hrr
      rw [hs'] at hrr
      have hrr2 : r ∈ (s.view.engineNodes.foldl cutStep
          (cutInitProto s, s)).2.view.replicaSequencers := hrr
      rw [hv] at hrr2
      have hb := hinv.1 r hrr2
      rw [hs']
      show (s.view.engineNodes.foldl cutStep (cutInitProto s, s)).2.metalog_progresses r
        ≤ (s.view.engineNodes.foldl cutStep (cutInitProto s, s)).2.metalog_position + 1
      rw [hp, hm]
      show s.metalog_progresses r ≤ s.metalog_position + 1
      omega
    · rw [hs']
      show (s.view.engineNodes.foldl cutStep (cutInitProto s, s)).2.replicated_metalog_position
        = medianOf
            ((s.view.engineNodes.foldl cutStep
                (cutInitProto s, s)).2.view.replicaSequencers.map
              (s.view.engineNodes.foldl cutStep (cutInitProto s, s)).2.metalog_progresses)
      rw [hr, hv, hp]
      exact hinv.2

end MetaLogPrimary

/-- Witness for C1 at the reachable three-replica state `quorumState`
(metalog position 2, acknowledgments 0/1/0): replica 4 acknowledging
position 2 succeeds and the quorum conclusions hold. -/
theorem updateReplicaProgress_quorum_witness :
    MetaLogPrimary.ReplInv quorumState ∧
    quorumState.isReplicaSequencer 4 = true ∧
    2 ≤ quorumState.metalog_position ∧
    (∃ s', quorumState.updateReplicaProgress 4 2 = some s' ∧
      MetaLogPrimary.ReplInv s' ∧
      quorumState.replicated_metalog_position ≤ s'.replicated_metalog_position ∧
      s'.replicated_metalog_position ≤ s'.metalog_position ∧
      s'.replicated_metalog_position
        = MetaLogPrimary.medianOf (s'.view.replicaSequencers.map s'.metalog_progresses) ∧
      s'.metalog_position = quorumState.metalog_position) :=
  ⟨⟨by decide, by decide⟩, by decide, by decide,
   MetaLogPrimary.updateReplicaProgress_quorum quorumState 4 2
     ⟨by decide, by decide⟩ (by decide) (by decide)⟩

/-- Witness for C2 at the concrete state `mlpState1` (engine 1 dirty
with replicated position 1, last cut 0): the hypotheses hold and the cut
conclusions follow by applying the theorem. -/
theorem markNextCut_spec_witness :
    mlpState1.view.engineNodes.Nodup ∧
    mlpState1.dirty_shards ≠ ∅ ∧
    MetaLogPrimary.DirtyInv mlpState1 ∧
    (∃ proto s', mlpState1.markNextCut = some (proto, s') ∧
      proto.shard_starts = mlpState1.view.engineNodes.map mlpState1.last_cut ∧
      proto.shard_deltas = mlpState1.view.engineNodes.map (fun e =>
        if e ∈ mlpState1.dirty_shards
        then mlpState1.getShardReplicatedPosition e - mlpState1.last_cut e else 0) ∧
      proto.metalog_seqnum = mlpState1.metalog_position ∧
      (∀ e ∈ mlpState1.view.engineNodes,
        (s'.last_cut e ≠ mlpState1.last_cut e ↔ e ∈ mlpState1.dirty_shards)) ∧
      s'.metalog_position = mlpState1.metalog_position + 1) :=
  ⟨by decide, by decide, by unfold MetaLogPrimary.DirtyInv; decide,
   MetaLogPrimary.markNextCut_spec mlpState1 (by decide) (by decide)
     (by unfold MetaLogPrimary.DirtyInv; decide)⟩

/-- C3 (code bug), evaluated on a concrete run: the dirty-shard
invariant (`min_s shard_progress[e,s] > last_cut[e]` for every dirty
`e`) holds after `UpdateStorageProgress` marks engine 1 dirty, but
`MarkNextCut` never clears `dirty_shards_` (log_space.cpp:74-99 has no
`dirty_shards_.clear()`), so afterwards engine 1 is still dirty while
its replicated position equals its last cut — the invariant is
violated, and a second `MarkNextCut` emits a zero-delta record and
falsifies its own `DCHECK_GT(current_position, last_cut_)`. -/
theorem markNextCut_breaks_dirty_invariant :
    MetaLogPrimary.DirtyInv mlpState1 ∧
    (1 : ℕ) ∈ mlpState1.dirty_shards ∧
    (mlpState1.markNextCut).isSome = true ∧
    (1 : ℕ) ∈ mlpState2.dirty_shards ∧
    mlpState2.getShardReplicatedPosition 1 = 1 ∧
    mlpState2.last_cut 1 = 1 ∧
    ¬ MetaLogPrimary.DirtyInv mlpState2 ∧
    (mlpState2.markNextCut).isSome = true ∧
    (mlpState2.markNextCut.getD
      (MetaLogPrimary.cutInitProto mlpState2, mlpState2)).1.shard_deltas = [0] := by
  refine ⟨?_, by decide, by decide, by decide, by decide, by decide, ?_,
          by decide, by decide⟩
  · unfold MetaLogPrimary.DirtyInv
    decide
  · unfold MetaLogPrimary.DirtyInv
    decide

/-! ### Log storage invariants (C10) -/

theorem alContainsKey_iff_mem_keys {β : Type} (m : List (ℕ × β)) (k : ℕ) :
    alContainsKey m k = true ↔ k ∈ m.map Prod.fst := by
  simp [alContainsKey, List.any_eq_true, List.mem_map]

theorem alSet_keys_mem {β : Type} (m : List (ℕ × β)) (k : ℕ) (v : β) (x : ℕ) :
    x ∈ (alSet m k v).map Prod.fst ↔ (x ∈ m.map Prod.fst ∨ x = k) := by
  cases hc : alContainsKey m k with
  | true =>
    rw [EngineCore.alSet_of_contains m k v hc, List.map_map]
    have hcomp : (Prod.fst ∘ fun p : ℕ × β => if p.1 = k then (k, v) else p)
        = Prod.fst := by
      funext p
      by_cases hp : p.1 = k
      · simp [Function.comp, hp]
      · simp [Function.comp, hp]
    rw [hcomp]
    constructor
    · exact Or.inl
    · rintro (h | rfl)
      · exact h
      · exact (alContainsKey_iff_mem_keys m x).mp hc
  | false =>
    rw [EngineCore.alSet_of_not_contains m k v hc, List.map_append]
    simp

theorem alErase_keys_mem {β : Type} (m : List (ℕ × β)) (k x : ℕ) :
    x ∈ (alErase m k).map Prod.fst ↔ (x ∈ m.map Prod.fst ∧ x ≠ k) := by
  unfold alErase
  constructor
  · intro hx
    obtain ⟨p, hp, hpx⟩ := List.mem_map.mp hx
    obtain ⟨hpm, hpk⟩ := List.mem_filter.mp hp
    simp only [decide_eq_true_eq] at hpk
    refine ⟨List.mem_map.mpr ⟨p, hpm, hpx⟩, ?_⟩
    intro hxk
    exact hpk (by rw [hpx, hxk])
  · rintro ⟨hx, hxk⟩
    obtain ⟨p, hp, hpx⟩ := List.mem_map.mp hx
    refine List.mem_map.mpr ⟨p, List.mem_filter.mpr ⟨hp, ?_⟩, hpx⟩
    simp only [decide_eq_true_eq]
    intro hpk
    exact hxk (by rw [← hpx, hpk])

namespace LogStorage

theorem shrinkLoop_spec (maxSize persisted : ℕ) :
    ∀ (l : List ℕ) (m : List (ℕ × StorageLogEntry)),
      l.Pairwise (· < ·) →
      (∀ q ∈ l, q ∈ m.map Prod.fst) →
      (∀ q ∈ m.map Prod.fst, q ∈ l) →
      (shrinkLoop maxSize persisted l m).1.Pairwise (· < ·) ∧
      (∀ q ∈ (shrinkLoop maxSize persisted l m).1,
        q ∈ (shrinkLoop maxSize persisted l m).2.map Prod.fst) ∧
      (∀ q ∈ (shrinkLoop maxSize persisted l m).2.map Prod.fst,
        q ∈ (shrinkLoop maxSize persisted l m).1) ∧
      (∀ q ∈ l, q ∈ (shrinkLoop maxSize persisted l m).1 ∨ q < persisted) ∧
      (∀ q ∈ (shrinkLoop maxSize persisted l m).1, q ∈ l) := by
  intro l
  induction l with
  | nil =>
    intro m h1 h2 h3
    exact ⟨List.Pairwise.nil, by simp [shrinkLoop],
           by simpa [shrinkLoop] using h3,
           by simp [shrinkLoop], by simp [shrinkLoop]⟩
  | cons q t ih =>
    intro m h1 h2 h3
    obtain ⟨hq, h1t⟩ := List.pairwise_cons.mp h1
    simp only [shrinkLoop]
    by_cases hcond : t.length + 1 > maxSize ∧ q < persisted
    · rw [if_pos hcond]
      have h2' : ∀ x ∈ t, x ∈ (alErase m q).map Prod.fst := by
        intro x hx
        exact (alErase_keys_mem m q x).mpr
          ⟨h2 x (List.mem_cons_of_mem q hx), (hq x hx).ne'⟩
      have h3' : ∀ x ∈ (alErase m q).map Prod.fst, x ∈ t := by
        intro x hx
        obtain ⟨hxm, hxq⟩ := (alErase_keys_mem m q x).mp hx
        rcases List.mem_cons.mp (h3 x hxm) with hxeq | hxt
        · exact absurd hxeq hxq
        · exact hxt
      obtain ⟨i1, i2, i3, i4, i5⟩ := ih (alErase m q) h1t h2' h3'
      refine ⟨i1, i2, i3, ?_, ?_⟩
      · intro x hx
        rcases List.mem_cons.mp hx with hxeq | hxt
        · subst hxeq
          exact Or.inr hcond.2
        · exact i4 x hxt
      · intro x hx
        exact List.mem_cons_of_mem q (i5 x hx)
    · rw [if_neg hcond]
      exact ⟨h1, h2, h3, fun x hx => Or.inl hx, fun x hx => hx⟩

theorem shrink_persisted (s : LogStorage) :
    (shrinkLiveEntriesIfNeeded s).persisted_seqnum_position
      = s.persisted_seqnum_position := rfl

theorem serveHeadRequest_frame (s : LogStorage) (q : ℕ) (e : StorageLogEntry) :
    (serveHeadRequest s q e).live_seqnums = s.live_seqnums ∧
    (serveHeadRequest s q e).live_log_entries = s.live_log_entries ∧
    (serveHeadRequest s q e).persisted_seqnum_position
      = s.persisted_seqnum_position := by
  unfold serveHeadRequest
  split
  · exact ⟨rfl, rfl, rfl⟩
  · split
    · exact ⟨rfl, rfl, rfl⟩
    · exact ⟨rfl, rfl, rfl⟩

theorem onNewLogsLoop_inv :
    ∀ (d seqStart locStart : ℕ) (s s' : LogStorage),
      StorageInv s →
      (∀ q ∈ s.live_seqnums, q < seqStart) →
      onNewLogsLoop d seqStart locStart s = some s' →
      StorageInv s' ∧
      s'.persisted_seqnum_position = s.persisted_seqnum_position ∧
      (∀ q ∈ s.live_seqnums, q ∈ s'.live_seqnums ∨ q < s.persisted_seqnum_position) := by
  intro d
  induction d with
  | zero =>
    intro seqStart locStart s s' hinv hfresh h
    simp only [onNewLogsLoop] at h
    obtain rfl := Option.some.inj h
    exact ⟨hinv, rfl, fun q hq => Or.inl hq⟩
  | succ d ih =>
    intro seqStart locStart s s' hinv hfresh h
    simp only [onNewLogsLoop] at h
    split at h
    · exact absurd h (by simp)
    · rename_i entry hfind
      obtain ⟨hsort, hsync1, hsync2⟩ := hinv
      -- the state after the pending-to-live move, before shrinking
      have hfreshkey : seqStart ∉ s.live_log_entries.map Prod.fst := by
        intro hmem
        exact absurd (hfresh seqStart (hsync2 seqStart hmem)) (lt_irrefl seqStart)
      have hsort1 : (s.live_seqnums ++ [seqStart]).Pairwise (· < ·) := by
        rw [List.pairwise_append]
        refine ⟨hsort, List.pairwise_singleton _ _, ?_⟩
        intro a ha b hb
        rw [List.mem_singleton.mp hb]
        exact hfresh a ha
      have hkeys1 : ∀ x, x ∈ (alSet s.live_log_entries seqStart
            { entry with seqnum := seqStart }).map Prod.fst
          ↔ (x ∈ s.live_log_entries.map Prod.fst ∨ x = seqStart) :=
        fun x => alSet_keys_mem s.live_log_entries seqStart _ x
      have hsync1' : ∀ q ∈ s.live_seqnums ++ [seqStart],
          q ∈ (alSet s.live_log_entries seqStart
            { entry with seqnum := seqStart }).map Prod.fst := by
        intro x hx
        rcases List.mem_append.mp hx with hxl | hxr
        · exact (hkeys1 x).mpr (Or.inl (hsync1 x hxl))
        · exact (hkeys1 x).mpr (Or.inr (List.mem_singleton.mp hxr))
      have hsync2' : ∀ q ∈ (alSet s.live_log_entries seqStart
            { entry with seqnum := seqStart }).map Prod.fst,
          q ∈ s.live_seqnums ++ [seqStart] := by
        intro x hx
        rcases (hkeys1 x).mp hx with hxm | hxeq
        · exact List.mem_append.mpr (Or.inl (hsync2 x hxm))
        · exact List.mem_append.mpr (Or.inr (List.mem_singleton.mpr hxeq))
      obtain ⟨j1, j2, j3, j4, j5⟩ := shrinkLoop_spec s.maxLiveEntries
        s.persisted_seqnum_position (s.live_seqnums ++ [seqStart])
        (alSet s.live_log_entries seqStart { entry with seqnum := seqStart })
        hsort1 hsync1' hsync2'
      obtain ⟨f1, f2, f3⟩ := serveHeadRequest_frame
        (shrinkLiveEntriesIfNeeded
          { s with
            pending_log_entries := alErase s.pending_log_entries locStart,
            live_seqnums := s.live_seqnums ++ [seqStart],
            live_log_entries := alSet s.live_log_entries seqStart
              { entry with seqnum := seqStart } })
        seqStart { entry with seqnum := seqStart }
      have hinv3 : StorageInv
          (serveHeadRequest
            (shrinkLiveEntriesIfNeeded
              { s with
                pending_log_entries := alErase s.pending_log_entries locStart,
                live_seqnums := s.live_seqnums ++ [seqStart],
                live_log_entries := alSet s.live_log_entries seqStart
                  { entry with seqnum := seqStart } })
            seqStart { entry with seqnum := seqStart }) := by
        refine ⟨?_, ?_, ?_⟩
        · rw [f1]
          exact j1
        · intro x hx
          rw [f1] at hx
          rw [f2]
          exact j2 x hx
        · intro x hx
          rw [f2] at hx
          rw [f1]
          exact j3 x hx
      have hfresh3 : ∀ q ∈ (serveHeadRequest
            (shrinkLiveEntriesIfNeeded
              { s with
                pending_log_entries := alErase s.pending_log_entries locStart,
                live_seqnums := s.live_seqnums ++ [seqStart],
                live_log_entries := alSet s.live_log_entries seqStart
                  { entry with seqnum := seqStart } })
            seqStart { entry with seqnum := seqStart }).live_seqnums,
          q < seqStart + 1 := by
        intro x hx
        rw [f1] at hx
        have hxl := j5 x hx
        rcases List.mem_append.mp hxl with hxm | hxr
        · exact Nat.lt_succ_of_lt (hfresh x hxm)
        · rw [List.mem_singleton.mp hxr]
          exact Nat.lt_succ_self seqStart
      obtain ⟨k1, k2, k3⟩ := ih (seqStart + 1) (locStart + 1) _ s' hinv3 hfresh3 h
      refine ⟨k1, by rw [k2, f3, shrink_persisted], ?_⟩
      intro x hx
      have hx1 : x ∈ s.live_seqnums ++ [seqStart] := List.mem_append.mpr (Or.inl hx)
      rcases j4 x hx1 with hkeep | hdrop
      · have hx3 : x ∈ (serveHeadRequest
            (shrinkLiveEntriesIfNeeded
              { s with
                pending_log_entries := alErase s.pending_log_entries locStart,
                live_seqnums := s.live_seqnums ++ [seqStart],
                live_log_entries := alSet s.live_log_entries seqStart
                  { entry with seqnum := seqStart } })
            seqStart { entry with seqnum := seqStart }).live_seqnums := by
          rw [f1]
          exact hkeep
        rcases k3 x hx3 with hk | hlt
        · exact Or.inl hk
        · refine Or.inr ?_
          rw [f3, shrink_persisted] at hlt
          exact hlt
      · exact Or.inr hdrop

theorem store_frame (s : LogStorage) (l q : ℕ) (d : List ℕ) :
    (store s l q d).2.live_seqnums = s.live_seqnums ∧
    (store s l q d).2.live_log_entries = s.live_log_entries ∧
    (store s l q d).2.persisted_seqnum_position = s.persisted_seqnum_position := by
  rw [store]
  by_cases hc : narrowU16 (highHalf64 l) ∈ s.sourceEngines
  · rw [if_pos hc, advanceShardProgress]
    by_cases h2 : storageCounterLoop
        (alSet s.pending_log_entries l { localid := l, seqnum := q, data := d })
        (narrowU16 (highHalf64 l))
        ((alSet s.pending_log_entries l
          { localid := l, seqnum := q, data := d }).length + 1)
        (s.shard_progresses (narrowU16 (highHalf64 l)))
        > s.shard_progresses (narrowU16 (highHalf64 l))
    · rw [if_pos h2]
      exact ⟨rfl, rfl, rfl⟩
    · rw [if_neg h2]
      exact ⟨rfl, rfl, rfl⟩
  · rw [if_neg hc]
    exact ⟨rfl, rfl, rfl⟩

theorem readAt_frame (s : LogStorage) (request : ReadRequest) :
    (readAt s request).live_seqnums = s.live_seqnums ∧
    (readAt s request).live_log_entries = s.live_log_entries ∧
    (readAt s request).persisted_seqnum_position = s.persisted_seqnum_position := by
  rw [readAt]
  by_cases h1 : request.seqnum ≥ s.seqnum_position
  · rw [if_pos h1]
    exact ⟨rfl, rfl, rfl⟩
  · rw [if_neg h1]
    by_cases h2 : alContainsKey s.live_log_entries request.seqnum = true
    · rw [if_pos h2]
      exact ⟨rfl, rfl, rfl⟩
    · rw [if_neg h2]
      by_cases h3 : request.seqnum < s.persisted_seqnum_position
      · rw [if_pos h3]
        exact ⟨rfl, rfl, rfl⟩
      · rw [if_neg h3]
        exact ⟨rfl, rfl, rfl⟩

/-- C10: every modelled `LogStorage` operation (`Store`, `ReadAt`,
`LogEntriesPersisted`, `OnNewLogs` under the code's own DCHECK
precondition) preserves the invariant that `live_seqnums_` is strictly
increasing and holds exactly the seqnums of `live_log_entries_`, and a
live seqnum disappears only if it is below
`persisted_seqnum_position_` — an unpersisted entry is never evicted,
even when the live set exceeds the configured maximum. -/
theorem step_preserves_inv (s s' : LogStorage) (hinv : StorageInv s)
    (hstep : Step s s') :
    StorageInv s' ∧
    (∀ q ∈ s.live_seqnums, q ∈ s'.live_seqnums
      ∨ q < s'.persisted_seqnum_position) := by
  cases hstep with
  | store localid seqnum data =>
    obtain ⟨f1, f2, f3⟩ := store_frame s localid seqnum data
    refine ⟨⟨?_, ?_, ?_⟩, ?_⟩
    · rw [f1]; exact hinv.1
    · intro x hx
      rw [f1] at hx
      rw [f2]
      exact hinv.2.1 x hx
    · intro x hx
      rw [f2] at hx
      rw [f1]
      exact hinv.2.2 x hx
    · intro x hx
      rw [f1]
      exact Or.inl hx
  | readAt req =>
    obtain ⟨f1, f2, f3⟩ := readAt_frame s req
    refine ⟨⟨?_, ?_, ?_⟩, ?_⟩
    · rw [f1]; exact hinv.1
    · intro x hx
      rw [f1] at hx
      rw [f2]
      exact hinv.2.1 x hx
    · intro x hx
      rw [f2] at hx
      rw [f1]
      exact hinv.2.2 x hx
    · intro x hx
      rw [f1]
      exact Or.inl hx
  | logEntriesPersisted pos =>
    obtain ⟨j1, j2, j3, j4, j5⟩ := shrinkLoop_spec s.maxLiveEntries pos
      s.live_seqnums s.live_log_entries hinv.1 hinv.2.1 hinv.2.2
    exact ⟨⟨j1, j2, j3⟩, j4⟩
  | onNewLogs =>
    rename_i startSeqnum startLocalid delta hfresh h
    unfold onNewLogs at h
    have hinv0 : StorageInv
        { s with
          pending_read_requests :=
            s.pending_read_requests.dropWhile (fun r => r.seqnum < startSeqnum),
          pending_read_results := s.pending_read_results ++
            (s.pending_read_requests.takeWhile (fun r => r.seqnum < startSeqnum)).map
              (fun r => { status := ReadStatus.kFailed, log_entry := none,
                          original_request := r }) } :=
      ⟨hinv.1, hinv.2.1, hinv.2.2⟩
    obtain ⟨k1, k2, k3⟩ := onNewLogsLoop_inv delta startSeqnum startLocalid _ s'
      hinv0 hfresh h
    refine ⟨k1, ?_⟩
    intro x hx
    rcases k3 x hx with hk | hlt
    · exact Or.inl hk
    · exact Or.inr (by rw [k2]; exact hlt)

end LogStorage

/-- A concrete storage state: two live entries (seqnums 1 and 2), a
live-set limit of one entry, nothing persisted yet. -/
def storState : LogStorage :=
  { sourceEngines := [1], maxLiveEntries := 1, seqnum_position := 3,
    pending_log_entries := [], pending_read_requests := [],
    pending_read_results := [],
    live_seqnums := [1, 2],
    live_log_entries := [(1, { localid := joinTwo32 1 0, seqnum := 1, data := [7] }),
                         (2, { localid := joinTwo32 1 1, seqnum := 2, data := [8] })],
    shard_progresses := fun _ => 2, shard_progress_dirty := false,
    persisted_seqnum_position := 0 }

/-- Witness for C10 at `storState`: persisting up to seqnum 2 shrinks
the oversized live set, and the theorem's conclusions follow — entry 1
is evicted only because it is below the new persisted position, entry 2
survives. -/
theorem step_preserves_inv_witness :
    LogStorage.StorageInv storState ∧
    (LogStorage.StorageInv (storState.logEntriesPersisted 2) ∧
      (∀ q ∈ storState.live_seqnums,
        q ∈ (storState.logEntriesPersisted 2).live_seqnums
          ∨ q < (storState.logEntriesPersisted 2).persisted_seqnum_position)) :=
  ⟨⟨by decide, by decide, by decide⟩,
   LogStorage.step_preserves_inv storState (storState.logEntriesPersisted 2)
     ⟨by decide, by decide, by decide⟩
     (LogStorage.Step.logEntriesPersisted storState 2)⟩

/-! ### Inline vs shared-memory payload transport (C6) -/

/-- C6: a payload travels in a shared-memory region iff it exceeds
`INLINE_MAX`, with the sign of `payload_size` as the only wire signal:
`OnExternalFuncCall` creates the named input region exactly when the
input exceeds `INLINE_MAX`; the producer encoding negates the size
exactly on the shm path; both receivers (`Engine::OnRecvMessage` and
`FuncWorker::WaitInvokeFunc`) recover the payload bit-exact, reading
from shm with size `|payload_size|` when `payload_size < 0` and from
the first `payload_size` inline bytes otherwise. -/
theorem payload_transport_roundtrip (inlineMax : ℕ) (f : FuncCall) (p : List ℕ)
    (cid : ℕ) :
    ((externalCallInputRegion inlineMax f p).isSome = true ↔ p.length > inlineMax) ∧
    ((encodePayload inlineMax (ShmName.output cid) p).1.payload_size < 0
      ↔ p.length > inlineMax) ∧
    engineDecodeOutput (encodePayload inlineMax (ShmName.output cid) p).2 cid
      (encodePayload inlineMax (ShmName.output cid) p).1 = some p ∧
    workerDecodeOutput (encodePayload inlineMax (ShmName.output cid) p).2 cid
      (encodePayload inlineMax (ShmName.output cid) p).1 = some p ∧
    engineDecodeInput (encodePayload inlineMax (ShmName.input cid) p).1
      = (if p.length > inlineMax then InputSource.shm p.length
         else InputSource.inlineBytes p) := by
  have hinline : getInlineData
      { payload_size := ((p.length : ℕ) : Int), inline_data := p } = p := by
    unfold getInlineData
    simp
  refine ⟨?_, ?_, ?_, ?_, ?_⟩
  · unfold externalCallInputRegion
    by_cases hp : p.length > inlineMax
    · simp [hp]
    · simp [hp]
  · unfold encodePayload
    by_cases hp : p.length > inlineMax
    · rw [if_pos hp]
      show -((p.length : ℕ) : Int) < 0 ↔ p.length > inlineMax
      exact iff_of_true (by omega) hp
    · rw [if_neg hp]
      show ((p.length : ℕ) : Int) < 0 ↔ p.length > inlineMax
      exact iff_of_false (by omega) hp
  · unfold encodePayload
    by_cases hp : p.length > inlineMax
    · rw [if_pos hp]
      show engineDecodeOutput [(ShmName.output cid, p)] cid
        { payload_size := -((p.length : ℕ) : Int), inline_data := [] } = some p
      unfold engineDecodeOutput
      rw [if_pos (show -((p.length : ℕ) : Int) < 0 by omega)]
      simp [shmOpen]
    · rw [if_neg hp]
      show engineDecodeOutput [] cid
        { payload_size := ((p.length : ℕ) : Int), inline_data := p } = some p
      unfold engineDecodeOutput
      rw [if_neg (show ¬ ((p.length : ℕ) : Int) < 0 by omega), hinline]
  · unfold encodePayload
    by_cases hp : p.length > inlineMax
    · rw [if_pos hp]
      show workerDecodeOutput [(ShmName.output cid, p)] cid
        { payload_size := -((p.length : ℕ) : Int), inline_data := [] } = some p
      unfold workerDecodeOutput
      rw [if_pos (show -((p.length : ℕ) : Int) < 0 by omega)]
      have hopen : shmOpen [(ShmName.output cid, p)] (ShmName.output cid) = some p := by
        simp [shmOpen]
      simp [hopen, Int.natAbs_neg]
    · rw [if_neg hp]
      show workerDecodeOutput [] cid
        { payload_size := ((p.length : ℕ) : Int), inline_data := p } = some p
      unfold workerDecodeOutput
      rw [if_neg (show ¬ ((p.length : ℕ) : Int) < 0 by omega), hinline]
  · unfold encodePayload
    by_cases hp : p.length > inlineMax
    · rw [if_pos hp, if_pos hp]
      show engineDecodeInput
        { payload_size := -((p.length : ℕ) : Int), inline_data := [] }
        = InputSource.shm p.length
      unfold engineDecodeInput
      rw [if_pos (show -((p.length : ℕ) : Int) < 0 by omega)]
      rw [show (-((p.length : ℕ) : Int)).natAbs = p.length by
        rw [Int.natAbs_neg, Int.natAbs_ofNat]]
    · rw [if_neg hp, if_neg hp]
      show engineDecodeInput
        { payload_size := ((p.length : ℕ) : Int), inline_data := p }
        = InputSource.inlineBytes p
      unfold engineDecodeInput
      rw [if_neg (show ¬ ((p.length : ℕ) : Int) < 0 by omega), hinline]

/-! ### Future-view holding at the sequencer handlers (C7) -/

/-- C7 counterexample at a concrete input: with the current view at id
6, a META_PROG message from view 7 makes `OnRecvMetaLogProgress` hit
`PANIC_IF_FROM_FUTURE_VIEW` (sequencer.cpp:137) — the handler is fatal
(`none`), it does not hold the message, so the holding policy does not
apply to all three handlers alike as claimed. -/
theorem metaLogProgress_future_view_panics :
    seqStateAtView6.currentView = some 6 ∧
    futureViewMsg.view_id = 7 ∧
    seqStateAtView6.onRecvMetaLogProgress futureViewMsg = none := by
  refine ⟨rfl, rfl, ?_⟩
  rfl

/-- C7 (amended): a message from a future view — or one arriving before
any view is installed — is appended to `future_requests_` by
`OnRecvShardProgress` and `OnRecvNewMetaLogs`, which return without
touching any logspace; `OnRecvMetaLogProgress` instead treats such a
message as fatal. -/
theorem future_view_holding (s : SequencerState) (msg : SharedLogMessage)
    (payload : List ℕ) (metalogs : List MetaLogProto)
    (hfuture : s.currentView = none ∨ ∃ v, s.currentView = some v ∧ v < msg.view_id) :
    s.onRecvShardProgress msg payload
      = some { s with futureRequests := s.futureRequests ++ [⟨msg, payload⟩] } ∧
    s.onRecvNewMetaLogs msg payload metalogs
      = some ({ s with futureRequests := s.futureRequests ++ [⟨msg, payload⟩] }, none) ∧
    s.onRecvMetaLogProgress msg = none := by
  rcases hfuture with hnone | ⟨v, hv, hlt⟩
  · refine ⟨?_, ?_, ?_⟩
    · unfold SequencerState.onRecvShardProgress
      simp only [hnone]
    · unfold SequencerState.onRecvNewMetaLogs
      simp only [hnone]
    · unfold SequencerState.onRecvMetaLogProgress
      simp only [hnone]
  · refine ⟨?_, ?_, ?_⟩
    · unfold SequencerState.onRecvShardProgress
      simp only [hv]
      rw [if_pos hlt]
    · unfold SequencerState.onRecvNewMetaLogs
      simp only [hv]
      rw [if_pos hlt]
    · unfold SequencerState.onRecvMetaLogProgress
      simp only [hv]
      rw [if_pos hlt]

/-- Witness for the amended C7 at the concrete sequencer state: view 6
installed, message from view 7 with a one-cell progress payload. -/
theorem future_view_holding_witness :
    (seqStateAtView6.currentView = none ∨
      ∃ v, seqStateAtView6.currentView = some v ∧ v < futureViewMsg.view_id) ∧
    (seqStateAtView6.onRecvShardProgress futureViewMsg [1]
      = some { seqStateAtView6 with futureRequests :=
          seqStateAtView6.futureRequests ++ [⟨futureViewMsg, [1]⟩] } ∧
    seqStateAtView6.onRecvNewMetaLogs futureViewMsg [1] []
      = some ({ seqStateAtView6 with futureRequests :=
          seqStateAtView6.futureRequests ++ [⟨futureViewMsg, [1]⟩] }, none) ∧
    seqStateAtView6.onRecvMetaLogProgress futureViewMsg = none) :=
  ⟨Or.inr ⟨6, rfl, by decide⟩,
   future_view_holding seqStateAtView6 futureViewMsg [1] []
     (Or.inr ⟨6, rfl, by decide⟩)⟩

/-! ### Discarded-call processing (C8) -/

theorem alFind?_alErase_self {β : Type} (m : List (ℕ × β)) (k : ℕ) :
    alFind? (alErase m k) k = none := by
  unfold alFind? alErase
  have hnone : (m.filter (fun p => decide ¬ p.1 = k)).find?
      (fun p => decide (p.1 = k)) = none := by
    rw [List.find?_eq_none]
    intro x hx
    have hxf := List.mem_filter.mp hx
    simpa using hxf.2
  rw [hnone]

theorem discardN_facts (s : EngineState) (f : FuncCall) :
    ∀ n : ℕ, (discardN s f n).discarded_func_calls
        = s.discarded_func_calls ++ List.replicate n f ∧
      (discardN s f n).external_func_call_shm_inputs
        = s.external_func_call_shm_inputs := by
  intro n
  induction n with
  | zero => simp [discardN]
  | succ n ih =>
    simp only [discardN, discardFuncCall]
    refine ⟨?_, ih.2⟩
    rw [ih.1, List.append_assoc, ← List.replicate_succ']

theorem processLoop_replicate_noinput (f : FuncCall) (hext : f.client_id = 0) :
    ∀ (k : ℕ) (s : EngineState),
      alFind? s.external_func_call_shm_inputs f.full_call_id = none →
      processLoop (List.replicate k f) s = (s, [], List.replicate k f, []) := by
  intro k
  induction k with
  | zero => intro s _; rfl
  | succ k ih =>
    intro s hf
    rw [List.replicate_succ]
    simp only [processLoop, hf, hext, if_pos]
    rw [ih s hf]

/-- C8 counterexample at a concrete input: discarding the same external
call twice before the end-of-tick processor runs yields **two**
`ExternalFuncCallFinished(success=false, discarded=true)` invocations,
not one — `discarded_func_calls_` is a plain vector with no
deduplication (engine.cpp:341-380). -/
theorem double_discard_two_finishes :
    (processDiscardedFuncCallIfNecessary
        (discardFuncCall (discardFuncCall
          { external_func_call_shm_inputs := [], discarded_func_calls := [] }
          extCall) extCall)).2.1
      = [{ func_call := extCall, success := false, discarded := true },
         { func_call := extCall, success := false, discarded := true }] ∧
    (processDiscardedFuncCallIfNecessary
        (discardFuncCall (discardFuncCall
          { external_func_call_shm_inputs := [], discarded_func_calls := [] }
          extCall) extCall)).2.1.length ≠ 1 := by
  refine ⟨rfl, by decide⟩

/-- C8 (amended): discarding an external call `n ≥ 1` times before the
end-of-tick processor yields exactly `n`
`ExternalFuncCallFinished(f, success=false, discarded=true)`
invocations (one per vector slot); the call's shm input region, when
registered, is reclaimed — removed from the map and returned with the
grabbed regions. -/
theorem discard_n_times_spec (s0 : EngineState) (f : FuncCall) (n : ℕ)
    (hext : f.client_id = 0) (hn : 1 ≤ n)
    (hempty : s0.discarded_func_calls = []) :
    (processDiscardedFuncCallIfNecessary (discardN s0 f n)).2.1
      = List.replicate n { func_call := f, success := false, discarded := true } ∧
    alFind? (processDiscardedFuncCallIfNecessary
        (discardN s0 f n)).1.external_func_call_shm_inputs f.full_call_id = none ∧
    (∀ region, alFind? s0.external_func_call_shm_inputs f.full_call_id = some region →
      region ∈ (processDiscardedFuncCallIfNecessary (discardN s0 f n)).2.2.1) := by
  obtain ⟨m, rfl⟩ : ∃ m, n = m + 1 := ⟨n - 1, by omega⟩
  obtain ⟨hd, hs⟩ := discardN_facts s0 f (m + 1)
  unfold processDiscardedFuncCallIfNecessary
  rw [hd, hempty, List.nil_append, List.replicate_succ]
  cases hf : alFind? s0.external_func_call_shm_inputs f.full_call_id with
  | none =>
    have hfN : alFind? (discardN s0 f (m + 1)).external_func_call_shm_inputs
        f.full_call_id = none := by rw [hs]; exact hf
    simp only [processLoop, hfN, hext, if_pos]
    rw [processLoop_replicate_noinput f hext m _ hfN]
    refine ⟨?_, ?_, ?_⟩
    · simp only [List.map_cons, List.map_replicate]
      rw [List.replicate_succ]
    · rw [hs]
      exact hf
    · intro region hreg
      exact absurd hreg (by simp)
  | some region =>
    have hfN : alFind? (discardN s0 f (m + 1)).external_func_call_shm_inputs
        f.full_call_id = some region := by rw [hs]; exact hf
    simp only [processLoop, hfN, hext, if_pos]
    have herased : alFind? (alErase (discardN s0 f (m + 1)).external_func_call_shm_inputs
        f.full_call_id) f.full_call_id = none := alFind?_alErase_self _ _
    rw [processLoop_replicate_noinput f hext m _ herased]
    refine ⟨?_, ?_, ?_⟩
    · simp only [List.map_cons, List.map_replicate]
      rw [List.replicate_succ]
    · exact herased
    · intro region' hreg
      have hrr : region' = region := (Option.some.inj hreg).symm
      subst hrr
      simp

/-- Witness for the amended C8: two discards of `extCall` (which has a
registered shm input) from `engineStateWithInput`. -/
theorem discard_n_times_spec_witness :
    extCall.client_id = 0 ∧ 1 ≤ 2 ∧
    engineStateWithInput.discarded_func_calls = [] ∧
    ((processDiscardedFuncCallIfNecessary (discardN engineStateWithInput extCall 2)).2.1
      = List.replicate 2 { func_call := extCall, success := false, discarded := true } ∧
    alFind? (processDiscardedFuncCallIfNecessary
        (discardN engineStateWithInput extCall 2)).1.external_func_call_shm_inputs
      extCall.full_call_id = none ∧
    (∀ region,
      alFind? engineStateWithInput.external_func_call_shm_inputs extCall.full_call_id
        = some region →
      region ∈ (processDiscardedFuncCallIfNecessary
        (discardN engineStateWithInput extCall 2)).2.2.1)) :=
  ⟨rfl, by decide, rfl,
   discard_n_times_spec engineStateWithInput extCall 2 rfl (by decide) rfl⟩

/-! ### Nested-call concurrency at the worker (C9) -/

/-- C9 counterexample at a concrete input: with a nested invocation
outstanding (`ongoing_invoke_func_` set), the naive `WaitInvokeFunc`
terminates the process (`LOG(FATAL)`, func_worker.cpp:236) — it does not
return `success=false` to the caller as claimed. -/
theorem concurrent_naive_wait_is_fatal :
    waitInvokeFunc true
      { msgType := MsgType.funcCallFailed,
        wire := { payload_size := 0, inline_data := [] } } [] 0
      = NestedCallResult.fatal ∧
    NestedCallResult.fatal ≠ NestedCallResult.failure := by
  refine ⟨rfl, by decide⟩

/-- C9 (amended): on the naive path a second nested invocation issued
while one is outstanding is fatal (process abort), whatever the result
message would have been; the FIFO path proceeds — its outcome is
independent of the `ongoing_invoke_func_` flag. -/
theorem nested_call_concurrency (result : WorkerMessage)
    (store : List (ShmName × List ℕ)) (fullCallId : ℕ)
    (c o p : Bool) (output : Option (Bool × List ℕ)) :
    waitInvokeFunc true result store fullCallId = NestedCallResult.fatal ∧
    fifoWaitInvokeFunc true c o p output = fifoWaitInvokeFunc false c o p output :=
  ⟨rfl, rfl⟩

end Boki
